import Mathlib

/-!
Verification development for `sapio-psbt` (`src/sapio-psbt/src/lib.rs`), the
taproot PSBT signing engine of the sapio repository.

The Rust code is shallowly embedded below.  Cryptographic primitives from the
external `bitcoin`/`secp256k1` crates are modelled symbolically: keys, public
keys, fingerprints, digests and Schnorr signatures are free terms recording
exactly the data the real primitives are computed from, and the one genuinely
unpredictable primitive (BIP-32 child-key derivation failure) is kept as an
arbitrary boolean oracle `CryptoCtx.derivFail` that theorems quantify over.
`BTreeMap` is modelled as an association list whose `insert` overwrites the
binding in place, matching the observable behaviour of `BTreeMap::insert`.
-/

set_option linter.unusedVariables false

namespace SapioPsbt

/-- BIP-341 tapleaf hash, kept abstract as a natural number. -/
abbrev TapLeafHash := Nat

/-- Merkle root of a taproot script tree (`TapBranchHash`), kept abstract. -/
abbrev TapBranchHash := Nat

/-- BIP-32 extended private keys, modelled symbolically: a master key created
from some seed, or a child obtained by one derivation step. -/
inductive XPriv where
  | master (seed : Nat)
  | child (parent : XPriv) (index : Nat)
deriving DecidableEq, Repr

/-- secp256k1 keypairs as symbolic terms: the keypair of an extended private
key (`ExtendedPrivKey::to_keypair`), or a taproot-tweaked keypair
(`KeyPair::tap_tweak(..).into_inner()`). -/
inductive KeyPair where
  | ofXPriv (k : XPriv)
  | tweak (kp : KeyPair) (merkleRoot : Option TapBranchHash)
deriving DecidableEq, Repr

/-- x-only public keys as symbolic terms: the public half of a keypair, or an
externally supplied key (one recorded by another signer). -/
inductive XOnlyPublicKey where
  | ofKeyPair (kp : KeyPair)
  | ext (n : Nat)
deriving DecidableEq, Repr

/-- Model of `XOnlyPublicKey::from_keypair(kp).0` / `kp.x_only_public_key().0`. -/
def KeyPair.x_only_public_key (kp : KeyPair) : XOnlyPublicKey := .ofKeyPair kp

/-- Model of `KeyPair::tap_tweak(secp, merkle_root).into_inner()`. -/
def KeyPair.tap_tweak (kp : KeyPair) (merkleRoot : Option TapBranchHash) : KeyPair :=
  .tweak kp merkleRoot

/-- Model of `ExtendedPrivKey::to_keypair`. -/
def XPriv.to_keypair (k : XPriv) : KeyPair := .ofXPriv k

/-- BIP-32 key fingerprints as symbolic terms: the fingerprint of a key we can
name, or an externally recorded fingerprint. -/
inductive Fingerprint where
  | ofXPriv (k : XPriv)
  | ext (n : Nat)
deriving DecidableEq, Repr

/-- Model of `ExtendedPrivKey::fingerprint`. -/
def XPriv.fingerprint (k : XPriv) : Fingerprint := .ofXPriv k

/-- `KeySource = (Fingerprint, DerivationPath)` from `bitcoin::util::bip32`. -/
abbrev KeySource := Fingerprint × List Nat

/-- The only unpredictable fact about BIP-32 derivation is whether a path hits
a defined-invalid intermediate value.  That predicate is deterministic for the
real primitives but not computable from our symbolic terms, so it is an
arbitrary oracle the theorems quantify over. -/
structure CryptoCtx where
  derivFail : XPriv → List Nat → Bool

/-- Model of `ExtendedPrivKey::derive_priv`: fails exactly when the oracle says
the path hits an invalid value, and otherwise walks the path. -/
def derive_priv (ctx : CryptoCtx) (k : XPriv) (path : List Nat) : Option XPriv :=
  if ctx.derivFail k path then none else some (path.foldl XPriv.child k)

/-- Transaction input; `script_sig`/`witness` are not modelled (the taproot
digest does not commit to them and the signer never reads them). -/
structure TxIn where
  prevTxid : Nat
  prevVout : Nat
deriving DecidableEq, Repr

/-- Transaction output. -/
structure TxOut where
  value : Nat
  script_pubkey : List Nat
deriving DecidableEq, Repr

/-- Bitcoin transaction, with the fields the signing engine depends on. -/
structure Transaction where
  version : Int
  lock_time : Nat
  input : List TxIn
  output : List TxOut
deriving DecidableEq, Repr

/-- `bitcoin::SchnorrSighashType`. -/
inductive SchnorrSighashType where
  | Default
  | All
  | None
  | Single
  | AllPlusAnyoneCanPay
  | NonePlusAnyoneCanPay
  | SinglePlusAnyoneCanPay
deriving DecidableEq, Repr

/-- Model of `SchnorrSighashType::split_anyonecanpay_flag`. -/
def SchnorrSighashType.split_anyonecanpay_flag :
    SchnorrSighashType → SchnorrSighashType × Bool
  | .Default => (.Default, false)
  | .All => (.All, false)
  | .None => (.None, false)
  | .Single => (.Single, false)
  | .AllPlusAnyoneCanPay => (.All, true)
  | .NonePlusAnyoneCanPay => (.None, true)
  | .SinglePlusAnyoneCanPay => (.Single, true)

/-- Failure cases of `SighashCache::taproot_signature_hash` that are reachable
with `Prevouts::All` and no annex (rust-bitcoin `util::sighash::Error`). -/
inductive SighashError where
  | PrevoutsSize
  | IndexOutOfInputsBounds
  | SingleWithoutCorrespondingOutput
deriving DecidableEq, Repr

/-- The taproot signature digest, modelled symbolically as a record of the
exact data BIP-341 commits to through the tagged hash. -/
structure TapSighashHash where
  tx : Transaction
  prevouts : List TxOut
  input_index : Nat
  annex : Option (List Nat)
  leaf_context : Option (TapLeafHash × Nat)
  hash_ty : SchnorrSighashType
deriving DecidableEq, Repr

/-- Model of `SighashCache::taproot_signature_hash` with `Prevouts::All`
(rust-bitcoin `taproot_encode_signing_data_to`): it fails when the prevout
list length disagrees with the input count (`Prevouts::check_all`), when the
anyone-can-pay flag is set and the input index is out of bounds, or when the
base sighash type is `Single` and there is no corresponding output (BIP-341);
otherwise it produces the digest. -/
def taproot_signature_hash (tx : Transaction) (prevouts : List TxOut) (input_index : Nat)
    (annex : Option (List Nat)) (path : Option (TapLeafHash × Nat))
    (hash_ty : SchnorrSighashType) : Except SighashError TapSighashHash :=
  if prevouts.length ≠ tx.input.length then .error .PrevoutsSize
  else if hash_ty.split_anyonecanpay_flag.2 ∧ tx.input.length ≤ input_index then
    .error .IndexOutOfInputsBounds
  else if hash_ty.split_anyonecanpay_flag.1 = .Single ∧ tx.output.length ≤ input_index then
    .error .SingleWithoutCorrespondingOutput
  else .ok ⟨tx, prevouts, input_index, annex, path, hash_ty⟩

/-- A secp256k1 message; the digest it was built from. -/
structure Message where
  digest : TapSighashHash
deriving DecidableEq, Repr

/-- Model of `Message::from_slice(&sighash[..])`: a `TapSighashHash` is always
exactly 32 bytes, so this never fails; the `Option` records that the Rust API
is fallible. -/
def Message.from_slice (digest : TapSighashHash) : Option Message := some ⟨digest⟩

/-- A BIP-340 Schnorr signature, modelled symbolically as the pair of the
message and the keypair it deterministically signs with. -/
structure SchnorrSignature where
  msg : Message
  kp : KeyPair
deriving DecidableEq, Repr

/-- Model of `Secp256k1::sign_schnorr_no_aux_rand`: deterministic signing,
modelled as a free term constructor. -/
def sign_schnorr_no_aux_rand (msg : Message) (kp : KeyPair) : SchnorrSignature := ⟨msg, kp⟩

/-- `bitcoin::SchnorrSig`: a signature together with the sighash type used. -/
structure SchnorrSig where
  sig : SchnorrSignature
  hash_ty : SchnorrSighashType
deriving DecidableEq, Repr

/-- `const DEFAULT_CODESEP: u32 = 0xffff_ffff` (lib.rs line 197). -/
def DEFAULT_CODESEP : Nat := 0xffffffff

/-- Model of `get_sig` (lib.rs lines 198-213).  The two `expect` calls are
modelled by returning `none` on panic. -/
def get_sig (tx : Transaction) (prevouts : List TxOut) (hash_ty : SchnorrSighashType)
    (kp : KeyPair) (path : Option (TapLeafHash × Nat)) : Option SchnorrSig :=
  match taproot_signature_hash tx prevouts 0 none path hash_ty with
  | .error _ => none
  | .ok d =>
    match Message.from_slice d with
    | none => none
    | some msg => some ⟨sign_schnorr_no_aux_rand msg kp, hash_ty⟩

/-- Keys of `Input::tap_script_sigs`. -/
abbrev SigKey := XOnlyPublicKey × TapLeafHash

/-- `BTreeMap::insert`, observationally: overwrite the binding in place if the
key is present, otherwise add a binding. -/
def btInsert {K V : Type} [DecidableEq K] (k : K) (v : V) : List (K × V) → List (K × V)
  | [] => [(k, v)]
  | (k', v') :: rest => if k' = k then (k, v) :: rest else (k', v') :: btInsert k v rest

/-- `BTreeMap` lookup. -/
def btLookup {K V : Type} [DecidableEq K] (k : K) : List (K × V) → Option V
  | [] => none
  | (k', v') :: rest => if k' = k then some v' else btLookup k rest

/-- `BTreeMap<(XOnlyPublicKey, TapLeafHash), SchnorrSig>`. -/
abbrev TapSigMap := List (SigKey × SchnorrSig)

/-- `bitcoin::psbt::Input`, restricted to the fields the signer reads or
writes. -/
structure Input where
  witness_utxo : Option TxOut
  tap_key_sig : Option SchnorrSig
  tap_script_sigs : TapSigMap
  tap_internal_key : Option XOnlyPublicKey
  tap_merkle_root : Option TapBranchHash
  tap_key_origins : List (XOnlyPublicKey × (List TapLeafHash × KeySource))
deriving DecidableEq, Repr

/-- `PartiallySignedTransaction`, restricted to the fields the signer uses. -/
structure Psbt where
  unsigned_tx : Transaction
  inputs : List Input
deriving DecidableEq, Repr

/-- Model of `PartiallySignedTransaction::extract_tx`: it only fills in
finalized script/witness fields, none of which are modelled on `TxIn`, so on
the modelled fields it is the unsigned transaction itself. -/
def Psbt.extract_tx (p : Psbt) : Transaction := p.unsigned_tx

/-- `PSBTSigningError` (lib.rs lines 184-188). -/
inductive PSBTSigningError where
  | NoUTXOAtIndex (i : Nat)
  | NoInputAtIndex (i : Nat)
deriving DecidableEq, Repr

/-- Model of `SigningKey::compute_matching_keys` (lib.rs lines 164-181):
filter the expected-signer table by fingerprint, then for each survivor derive
the child key and keep it only if the derived x-only public key equals the
recorded one. -/
def compute_matching_keys (self : XPriv) (ctx : CryptoCtx)
    (input : List (XOnlyPublicKey × (List TapLeafHash × KeySource))) :
    List (KeyPair × List TapLeafHash) :=
  let fingerprint := self.fingerprint
  (input.filter fun e => decide (e.2.2.1 = fingerprint)).filterMap fun e =>
    match derive_priv ctx self e.2.2.2 with
    | none => none
    | some k =>
      let new_priv := k.to_keypair
      if new_priv.x_only_public_key = e.1 then some (new_priv, e.2.1) else none

/-- Inner loop of `sign_all_tapleaf_branches` (lib.rs lines 127-139): sign one
leaf after another with the given keypair, inserting each signature under
`(kp.x_only_public_key().0, tlh)`; `none` models a panic inside `get_sig`. -/
def signLeaves (tx : Transaction) (prevouts : List TxOut) (hash_ty : SchnorrSighashType)
    (kp : KeyPair) : List TapLeafHash → TapSigMap → Option TapSigMap
  | [], m => some m
  | tlh :: rest, m =>
    match get_sig tx prevouts hash_ty kp (some (tlh, DEFAULT_CODESEP)) with
    | none => none
    | some sig => signLeaves tx prevouts hash_ty kp rest (btInsert (kp.x_only_public_key, tlh) sig m)

/-- Outer loop of `sign_all_tapleaf_branches` (lib.rs lines 126-140). -/
def signSigners (tx : Transaction) (prevouts : List TxOut) (hash_ty : SchnorrSighashType) :
    List (KeyPair × List TapLeafHash) → TapSigMap → Option TapSigMap
  | [], m => some m
  | (kp, vtlh) :: rest, m =>
    match signLeaves tx prevouts hash_ty kp vtlh m with
    | none => none
    | some m' => signSigners tx prevouts hash_ty rest m'

/-- Model of `SigningKey::sign_all_tapleaf_branches` (lib.rs lines 117-141). -/
def sign_all_tapleaf_branches (self : XPriv) (ctx : CryptoCtx) (tx : Transaction)
    (prevouts : List TxOut) (input : Input) (hash_ty : SchnorrSighashType) : Option Input :=
  match signSigners tx prevouts hash_ty (compute_matching_keys self ctx input.tap_key_origins)
      input.tap_script_sigs with
  | none => none
  | some m => some { input with tap_script_sigs := m }

/-- Model of `SigningKey::sign_taproot_top_key` (lib.rs lines 143-161): the
comparison is on the **untweaked** public key (`pk`), while the signature is
produced with the tweaked keypair; `_tweaked_pk` in the source is unused. -/
def sign_taproot_top_key (self : XPriv) (tx : Transaction) (prevouts : List TxOut)
    (input : Input) (hash_ty : SchnorrSighashType) : Option Input :=
  let untweaked := self.to_keypair
  let pk := untweaked.x_only_public_key
  let tweaked := untweaked.tap_tweak input.tap_merkle_root
  if input.tap_internal_key = some pk then
    match get_sig tx prevouts hash_ty tweaked none with
    | none => none
    | some sig => some { input with tap_key_sig := some sig }
  else some input

/-- The `enumerate`/`collect::<Result<Vec<TxOut>, usize>>` step of
`sign_psbt_input_mut` (lib.rs lines 93-105), which short-circuits at the first
input lacking a `witness_utxo`. -/
def collectUtxosFrom : Nat → List Input → Except Nat (List TxOut)
  | _, [] => .ok []
  | i, inp :: rest =>
    match inp.witness_utxo with
    | none => .error i
    | some u =>
      match collectUtxosFrom (i + 1) rest with
      | .error j => .error j
      | .ok us => .ok (u :: us)

/-- Previous-output collection for all inputs, starting at index 0. -/
def collectUtxos (l : List Input) : Except Nat (List TxOut) := collectUtxosFrom 0 l

/-- Model of `SigningKey::sign_psbt_input_mut` (lib.rs lines 85-115), with
state passing for the `&mut` PSBT; the outer `Option` is `none` when a
`get_sig` panic unwinds. -/
def sign_psbt_input_mut (self : XPriv) (ctx : CryptoCtx) (psbt : Psbt) (idx : Nat)
    (hash_ty : SchnorrSighashType) : Option (Psbt × Except PSBTSigningError Unit) :=
  let tx := psbt.extract_tx
  match collectUtxos psbt.inputs with
  | .error u => some (psbt, .error (.NoUTXOAtIndex u))
  | .ok utxos =>
    match psbt.inputs[idx]? with
    | none => some (psbt, .error (.NoInputAtIndex idx))
    | some input =>
      match sign_taproot_top_key self tx utxos input hash_ty with
      | none => none
      | some input1 =>
        match sign_all_tapleaf_branches self ctx tx utxos input1 hash_ty with
        | none => none
        | some input2 => some ({ psbt with inputs := psbt.inputs.set idx input2 }, .ok ())

/-! ### Characterization of `get_sig` -/

/-- Feasibility of the taproot digest computed by `get_sig` (input index 0):
the prevout list is complete, the anyone-can-pay bounds check passes, and a
`Single` base type has its corresponding output. -/
def DigestOk (tx : Transaction) (prevouts : List TxOut) (hash_ty : SchnorrSighashType) : Prop :=
  prevouts.length = tx.input.length ∧
    (hash_ty.split_anyonecanpay_flag.2 = true → tx.input.length ≠ 0) ∧
    (hash_ty.split_anyonecanpay_flag.1 = .Single → tx.output.length ≠ 0)

instance (tx : Transaction) (prevouts : List TxOut) (hash_ty : SchnorrSighashType) :
    Decidable (DigestOk tx prevouts hash_ty) := by
  unfold DigestOk; infer_instance

/-- The signature `get_sig` produces when the digest computation succeeds. -/
def canonSig (tx : Transaction) (prevouts : List TxOut) (hash_ty : SchnorrSighashType)
    (kp : KeyPair) (path : Option (TapLeafHash × Nat)) : SchnorrSig :=
  ⟨⟨⟨⟨tx, prevouts, 0, none, path, hash_ty⟩⟩, kp⟩, hash_ty⟩

/-- Sequential `BTreeMap::insert` of a list of bindings (the flattened insert
trace of the tapleaf signing loops). -/
def btApplyAll {K V : Type} [DecidableEq K] (L m : List (K × V)) : List (K × V) :=
  L.foldl (fun acc p => btInsert p.1 p.2 acc) m

/-- The insert trace of `signLeaves` for one matched keypair. -/
def leafInserts (tx : Transaction) (prevouts : List TxOut) (hash_ty : SchnorrSighashType)
    (kp : KeyPair) (vl : List TapLeafHash) : TapSigMap :=
  vl.map fun tlh =>
    ((kp.x_only_public_key, tlh), canonSig tx prevouts hash_ty kp (some (tlh, DEFAULT_CODESEP)))

/-- The insert trace of `signSigners`. -/
def signersInserts (tx : Transaction) (prevouts : List TxOut) (hash_ty : SchnorrSighashType) :
    List (KeyPair × List TapLeafHash) → TapSigMap
  | [] => []
  | (kp, vl) :: rest =>
    leafInserts tx prevouts hash_ty kp vl ++ signersInserts tx prevouts hash_ty rest

/-- Canonical value stored under a script-signature key: in the symbolic model
the public key determines the keypair, and the leaf determines the digest. -/
def canonFor (tx : Transaction) (prevouts : List TxOut) (hash_ty : SchnorrSighashType)
    (k : SigKey) : SchnorrSig :=
  match k.1 with
  | .ofKeyPair kp => canonSig tx prevouts hash_ty kp (some (k.2, DEFAULT_CODESEP))
  | .ext n =>
    canonSig tx prevouts hash_ty (KeyPair.ofXPriv (XPriv.master n)) (some (k.2, DEFAULT_CODESEP))

/-- Per-entry decision of the Key Matcher, written after the words of the
spec (§4.2): check the fingerprint, re-derive the child key, keep the entry
only if the re-derived public key equals the recorded one.  It is compared
with `compute_matching_keys`, which is translated from the source. -/
def matchKeySpec (self : XPriv) (ctx : CryptoCtx)
    (e : XOnlyPublicKey × (List TapLeafHash × KeySource)) :
    Option (KeyPair × List TapLeafHash) :=
  if e.2.2.1 = self.fingerprint then
    match derive_priv ctx self e.2.2.2 with
    | none => none
    | some k =>
      if k.to_keypair.x_only_public_key = e.1 then some (k.to_keypair, e.2.1) else none
  else none

/-- Number of entries of a script-signature map keyed by a given public key. -/
def countSigsFor (m : TapSigMap) (x : XOnlyPublicKey) : Nat :=
  (m.filter fun p => decide (p.1.1 = x)).length

deriving instance DecidableEq for Except

/-! ### Concrete fixtures used by witnesses and counterexamples -/

/-- Derivation oracle on which no path ever fails. -/
def exCtx : CryptoCtx := ⟨fun _ _ => false⟩

/-- Public key of the root keypair of `XPriv.master 0`. -/
def exPk : XOnlyPublicKey := (XPriv.master 0).to_keypair.x_only_public_key

/-- Child of the example master key along path `[1]`. -/
def exDerived : XPriv := XPriv.child (XPriv.master 0) 1

/-- Public key of the derived child keypair. -/
def exPubD : XOnlyPublicKey := exDerived.to_keypair.x_only_public_key

/-- An example previous output. -/
def exTxOut : TxOut := ⟨1, []⟩

/-- A transaction with one input and one output. -/
def exTx : Transaction := ⟨2, 0, [⟨0, 0⟩], [⟨1, []⟩]⟩

/-- A transaction with one input and no outputs. -/
def exTxNoOut : Transaction := ⟨2, 0, [⟨0, 0⟩], []⟩

/-- Input whose internal key is the untweaked root key and whose merkle root
commits to a script tree. -/
def exInputC1 : Input := ⟨some exTxOut, none, [], some exPk, some 5, []⟩

/-- Input with no internal key and no expected signers. -/
def exInputNoKey : Input := ⟨some exTxOut, none, [], none, none, []⟩

/-- PSBT whose only input lacks a `witness_utxo`. -/
def exPsbtNoUtxo : Psbt := ⟨exTx, [⟨none, none, [], none, none, []⟩]⟩

/-- Well-formed PSBT with one input that matches no signing key. -/
def exPsbtPlain : Psbt := ⟨exTx, [exInputNoKey]⟩

/-- An expected-signer table entry for the derived child key. -/
def exOrigins : List (XOnlyPublicKey × (List TapLeafHash × KeySource)) :=
  [(exPubD, ([7], (XPriv.fingerprint (XPriv.master 0), [1])))]

/-- Input carrying the expected-signer entry for the derived key. -/
def exInputOrig : Input := ⟨some exTxOut, none, [], none, none, exOrigins⟩

/-- Input that triggers both the key-path signer and the tapleaf signer. -/
def exInputBoth : Input := ⟨some exTxOut, none, [], some exPk, some 5, exOrigins⟩

/-- PSBT around `exInputBoth`. -/
def exPsbtBoth : Psbt := ⟨exTx, [exInputBoth]⟩

/-- An arbitrary pre-existing signature unrelated to the signing run. -/
def exJunkSig : SchnorrSig :=
  ⟨⟨⟨⟨exTx, [], 9, none, none, .All⟩⟩, (XPriv.master 99).to_keypair⟩, .All⟩

/-- Input with a pre-existing script signature under the derived key but a
leaf (`9`) not in the expected-signer table. -/
def exInputJunk : Input :=
  ⟨some exTxOut, none, [((exPubD, 9), exJunkSig)], none, none, exOrigins⟩

/-- PSBT around `exInputJunk`. -/
def exPsbtJunk : Psbt := ⟨exTx, [exInputJunk]⟩

/-- Input carrying a fingerprint-matching entry whose recorded public key is
not the one re-derived along the path. -/
def exInputMis : Input :=
  ⟨some exTxOut, none, [], none, none,
    [(XOnlyPublicKey.ext 42, ([7], (XPriv.fingerprint (XPriv.master 0), [1])))]⟩

/-- PSBT around `exInputMis`. -/
def exPsbtMis : Psbt := ⟨exTx, [exInputMis]⟩

/-- The key-path signature the example signing run produces. -/
def exSigKeyPath : SchnorrSig :=
  canonSig exTx [exTxOut] .All ((XPriv.master 0).to_keypair.tap_tweak (some 5)) none

/-- The tapleaf signature the example signing run produces. -/
def exSigLeaf : SchnorrSig :=
  canonSig exTx [exTxOut] .All exDerived.to_keypair (some (7, DEFAULT_CODESEP))

/-- `exInputBoth` after signing: key-path and tapleaf signatures set. -/
def exInputBothSigned : Input :=
  ⟨some exTxOut, some exSigKeyPath, [((exPubD, 7), exSigLeaf)], some exPk, some 5, exOrigins⟩

/-- PSBT around `exInputBothSigned`. -/
def exPsbtBothSigned : Psbt := ⟨exTx, [exInputBothSigned]⟩

/-- `exInputOrig` after the tapleaf signer ran. -/
def exInputOrigSigned : Input :=
  ⟨some exTxOut, none, [((exPubD, 7), exSigLeaf)], none, none, exOrigins⟩

theorem get_sig_char (tx : Transaction) (prevouts : List TxOut) (hash_ty : SchnorrSighashType)
    (kp : KeyPair) (path : Option (TapLeafHash × Nat)) :
    get_sig tx prevouts hash_ty kp path =
      if DigestOk tx prevouts hash_ty then some (canonSig tx prevouts hash_ty kp path)
      else none := by
  unfold get_sig taproot_signature_hash
  split_ifs with h1 h2 h3 h4 <;>
    simp_all [Message.from_slice, sign_schnorr_no_aux_rand, canonSig, DigestOk]

theorem get_sig_eq_some {tx : Transaction} {prevouts : List TxOut}
    {hash_ty : SchnorrSighashType} {kp : KeyPair} {path : Option (TapLeafHash × Nat)}
    {s : SchnorrSig} (h : get_sig tx prevouts hash_ty kp path = some s) :
    s = canonSig tx prevouts hash_ty kp path ∧ DigestOk tx prevouts hash_ty := by
  rw [get_sig_char] at h
  by_cases hd : DigestOk tx prevouts hash_ty
  · rw [if_pos hd] at h
    exact ⟨(Option.some.inj h).symm, hd⟩
  · rw [if_neg hd] at h
    cases h

/-! ### `BTreeMap` model lemmas -/

theorem btLookup_btInsert_self {K V : Type} [DecidableEq K] (k : K) (v : V) (m : List (K × V)) :
    btLookup k (btInsert k v m) = some v := by
  induction m with
  | nil => simp [btInsert, btLookup]
  | cons p rest ih =>
    by_cases h : p.1 = k <;> simp [btInsert, btLookup, h, ih]

theorem btLookup_btInsert_ne {K V : Type} [DecidableEq K] {k k' : K} (v : V) (m : List (K × V))
    (h : k ≠ k') : btLookup k' (btInsert k v m) = btLookup k' m := by
  induction m with
  | nil => simp [btInsert, btLookup, h]
  | cons p rest ih =>
    by_cases hp : p.1 = k
    · simp [btInsert, btLookup, hp, h, Ne.symm h]
    · by_cases hp' : p.1 = k' <;> simp [btInsert, btLookup, hp, hp', Ne.symm h, ih]

theorem btInsert_of_btLookup_eq {K V : Type} [DecidableEq K] {k : K} {v : V} {m : List (K × V)}
    (h : btLookup k m = some v) : btInsert k v m = m := by
  induction m with
  | nil => simp [btLookup] at h
  | cons p rest ih =>
    by_cases hp : p.1 = k
    · simp only [btLookup, hp, if_pos] at h
      cases p
      simp_all [btInsert]
    · simp only [btLookup, hp, if_neg, not_false_iff] at h
      simp [btInsert, hp, ih h]

theorem mem_keys_btInsert {K V : Type} [DecidableEq K] (a k : K) (v : V) (m : List (K × V)) :
    a ∈ (btInsert k v m).map Prod.fst ↔ a = k ∨ a ∈ m.map Prod.fst := by
  induction m with
  | nil => simp [btInsert]
  | cons p rest ih =>
    by_cases hp : p.1 = k
    · subst hp; simp [btInsert]
    · simp only [btInsert, hp, if_neg, not_false_iff, List.map_cons, List.mem_cons, ih]
      tauto

theorem btLookup_isSome_iff {K V : Type} [DecidableEq K] (k : K) (m : List (K × V)) :
    (btLookup k m).isSome = true ↔ k ∈ m.map Prod.fst := by
  induction m with
  | nil => simp [btLookup]
  | cons p rest ih =>
    by_cases hp : p.1 = k
    · simp [btLookup, hp]
    · simp only [btLookup, hp, if_neg, not_false_iff, List.map_cons, List.mem_cons, ih]
      constructor
      · exact Or.inr
      · rintro (h | h)
        · exact absurd h.symm hp
        · exact h

theorem nodup_keys_btInsert {K V : Type} [DecidableEq K] (k : K) (v : V) {m : List (K × V)}
    (h : (m.map Prod.fst).Nodup) : ((btInsert k v m).map Prod.fst).Nodup := by
  induction m with
  | nil => simp [btInsert]
  | cons p rest ih =>
    simp only [List.map_cons, List.nodup_cons] at h
    by_cases hp : p.1 = k
    · subst hp
      simpa [btInsert] using h
    · simp only [btInsert, hp, if_neg, not_false_iff, List.map_cons, List.nodup_cons]
      refine ⟨fun hmem => ?_, ih h.2⟩
      rcases (mem_keys_btInsert p.1 k v rest).1 hmem with h' | h'
      · exact hp h'
      · exact h.1 h'

theorem btApplyAll_nil {K V : Type} [DecidableEq K] (m : List (K × V)) :
    btApplyAll [] m = m := rfl

theorem btApplyAll_cons {K V : Type} [DecidableEq K] (p : K × V) (L m : List (K × V)) :
    btApplyAll (p :: L) m = btApplyAll L (btInsert p.1 p.2 m) := rfl

theorem btApplyAll_append {K V : Type} [DecidableEq K] (L1 L2 m : List (K × V)) :
    btApplyAll (L1 ++ L2) m = btApplyAll L2 (btApplyAll L1 m) := by
  simp [btApplyAll, List.foldl_append]

theorem btLookup_btApplyAll_of_not_mem {K V : Type} [DecidableEq K] {k : K} {L : List (K × V)}
    (m : List (K × V)) (h : k ∉ L.map Prod.fst) :
    btLookup k (btApplyAll L m) = btLookup k m := by
  induction L generalizing m with
  | nil => rfl
  | cons p L ih =>
    simp only [List.map_cons, List.mem_cons, not_or] at h
    rw [btApplyAll_cons, ih _ h.2, btLookup_btInsert_ne _ _ (fun hh => h.1 hh.symm)]

theorem btLookup_btApplyAll {K V : Type} [DecidableEq K] (f : K → V) {L : List (K × V)}
    (hf : ∀ p ∈ L, p.2 = f p.1) (m : List (K × V)) (k : K) :
    btLookup k (btApplyAll L m) =
      if k ∈ L.map Prod.fst then some (f k) else btLookup k m := by
  induction L generalizing m with
  | nil => simp [btApplyAll_nil]
  | cons p L ih =>
    rw [btApplyAll_cons, ih (fun q hq => hf q (List.mem_cons_of_mem _ hq))]
    by_cases hmem : k ∈ L.map Prod.fst
    · simp [hmem]
    · by_cases hk : k = p.1
      · subst hk
        simp [hmem, btLookup_btInsert_self, (hf p (List.mem_cons_self _ _)).symm]
      · simp [hmem, hk, btLookup_btInsert_ne _ _ (fun hh => hk hh.symm)]

theorem btApplyAll_fix {K V : Type} [DecidableEq K] (f : K → V) {L : List (K × V)}
    (hf : ∀ p ∈ L, p.2 = f p.1) (m : List (K × V))
    (h : ∀ p ∈ L, btLookup p.1 m = some (f p.1)) : btApplyAll L m = m := by
  induction L with
  | nil => rfl
  | cons p L ih =>
    have hins : btInsert p.1 p.2 m = m := by
      refine btInsert_of_btLookup_eq ?_
      rw [h p (List.mem_cons_self _ _), hf p (List.mem_cons_self _ _)]
    rw [btApplyAll_cons, hins]
    exact ih (fun q hq => hf q (List.mem_cons_of_mem _ hq))
      (fun q hq => h q (List.mem_cons_of_mem _ hq))

theorem btApplyAll_idem {K V : Type} [DecidableEq K] (f : K → V) {L : List (K × V)}
    (hf : ∀ p ∈ L, p.2 = f p.1) (m : List (K × V)) :
    btApplyAll L (btApplyAll L m) = btApplyAll L m := by
  refine btApplyAll_fix f hf _ (fun p hp => ?_)
  rw [btLookup_btApplyAll f hf]
  simp [List.mem_map_of_mem Prod.fst hp]

theorem mem_keys_btApplyAll {K V : Type} [DecidableEq K] (a : K) (L m : List (K × V)) :
    a ∈ (btApplyAll L m).map Prod.fst ↔ a ∈ m.map Prod.fst ∨ a ∈ L.map Prod.fst := by
  induction L generalizing m with
  | nil => simp [btApplyAll_nil]
  | cons p L ih =>
    rw [btApplyAll_cons, ih, mem_keys_btInsert]
    simp only [List.map_cons, List.mem_cons]
    tauto

theorem nodup_keys_btApplyAll {K V : Type} [DecidableEq K] (L : List (K × V))
    {m : List (K × V)} (h : (m.map Prod.fst).Nodup) :
    ((btApplyAll L m).map Prod.fst).Nodup := by
  induction L generalizing m with
  | nil => exact h
  | cons p L ih => exact btApplyAll_cons p L m ▸ ih (nodup_keys_btInsert p.1 p.2 h)

/-- Setting a list index to the value it already holds is the identity. -/
theorem list_set_of_getElem? {α : Type} {l : List α} {i : Nat} {v : α}
    (h : l[i]? = some v) : l.set i v = l := by
  induction l generalizing i with
  | nil => simp at h
  | cons a l ih =>
    cases i with
    | zero => simp_all
    | succ n => simp_all

/-! ### Shape lemmas for the signing loops -/

theorem leafInserts_consistent (tx : Transaction) (prevouts : List TxOut)
    (hash_ty : SchnorrSighashType) (kp : KeyPair) (vl : List TapLeafHash) :
    ∀ p ∈ leafInserts tx prevouts hash_ty kp vl, p.2 = canonFor tx prevouts hash_ty p.1 := by
  intro p hp
  rcases List.mem_map.1 hp with ⟨tlh, _, rfl⟩
  simp [canonFor, KeyPair.x_only_public_key]

theorem signersInserts_consistent (tx : Transaction) (prevouts : List TxOut)
    (hash_ty : SchnorrSighashType) (σ : List (KeyPair × List TapLeafHash)) :
    ∀ p ∈ signersInserts tx prevouts hash_ty σ, p.2 = canonFor tx prevouts hash_ty p.1 := by
  induction σ with
  | nil => intro p hp; simp [signersInserts] at hp
  | cons e rest ih =>
    intro p hp
    rcases e with ⟨kp, vl⟩
    rcases List.mem_append.1 hp with h | h
    · exact leafInserts_consistent tx prevouts hash_ty kp vl p h
    · exact ih p h

theorem keys_leafInserts (tx : Transaction) (prevouts : List TxOut)
    (hash_ty : SchnorrSighashType) (kp : KeyPair) (vl : List TapLeafHash) :
    (leafInserts tx prevouts hash_ty kp vl).map Prod.fst =
      vl.map fun tlh => (kp.x_only_public_key, tlh) := by
  simp [leafInserts]

theorem mem_keys_signersInserts (tx : Transaction) (prevouts : List TxOut)
    (hash_ty : SchnorrSighashType) (σ : List (KeyPair × List TapLeafHash)) (k : SigKey) :
    k ∈ (signersInserts tx prevouts hash_ty σ).map Prod.fst ↔
      ∃ kp vl tlh, (kp, vl) ∈ σ ∧ tlh ∈ vl ∧ k = (kp.x_only_public_key, tlh) := by
  induction σ with
  | nil => simp [signersInserts]
  | cons e rest ih =>
    rcases e with ⟨kp, vl⟩
    simp only [signersInserts, List.map_append, List.mem_append, ih, keys_leafInserts,
      List.mem_map, List.mem_cons]
    constructor
    · rintro (⟨tlh, htlh, rfl⟩ | ⟨kp', vl', tlh, hmem, htlh, rfl⟩)
      · exact ⟨kp, vl, tlh, Or.inl rfl, htlh, rfl⟩
      · exact ⟨kp', vl', tlh, Or.inr hmem, htlh, rfl⟩
    · rintro ⟨kp', vl', tlh, hmem | hmem, htlh, rfl⟩
      · cases hmem
        exact Or.inl ⟨tlh, htlh, rfl⟩
      · exact Or.inr ⟨kp', vl', tlh, hmem, htlh, rfl⟩

theorem signLeaves_ok {tx : Transaction} {prevouts : List TxOut} {hash_ty : SchnorrSighashType}
    (h : DigestOk tx prevouts hash_ty) (kp : KeyPair) :
    ∀ (vl : List TapLeafHash) (m : TapSigMap),
      signLeaves tx prevouts hash_ty kp vl m =
        some (btApplyAll (leafInserts tx prevouts hash_ty kp vl) m) := by
  intro vl
  induction vl with
  | nil => intro m; rfl
  | cons tlh rest ih =>
    intro m
    simp only [signLeaves, get_sig_char, if_pos h, leafInserts, List.map_cons, btApplyAll_cons]
    exact ih _

theorem signSigners_ok {tx : Transaction} {prevouts : List TxOut} {hash_ty : SchnorrSighashType}
    (h : DigestOk tx prevouts hash_ty) :
    ∀ (σ : List (KeyPair × List TapLeafHash)) (m : TapSigMap),
      signSigners tx prevouts hash_ty σ m =
        some (btApplyAll (signersInserts tx prevouts hash_ty σ) m) := by
  intro σ
  induction σ with
  | nil => intro m; rfl
  | cons e rest ih =>
    intro m
    rcases e with ⟨kp, vl⟩
    simp only [signSigners, signLeaves_ok h, signersInserts, btApplyAll_append]
    exact ih _

theorem signLeaves_some_of_not_ok {tx : Transaction} {prevouts : List TxOut}
    {hash_ty : SchnorrSighashType} (h : ¬DigestOk tx prevouts hash_ty) {kp : KeyPair}
    {vl : List TapLeafHash} {m m' : TapSigMap}
    (hs : signLeaves tx prevouts hash_ty kp vl m = some m') : vl = [] ∧ m' = m := by
  cases vl with
  | nil =>
    refine ⟨rfl, ?_⟩
    simpa [signLeaves] using hs.symm
  | cons tlh rest =>
    simp only [signLeaves, get_sig_char, if_neg h] at hs
    cases hs

theorem signSigners_not_ok {tx : Transaction} {prevouts : List TxOut}
    {hash_ty : SchnorrSighashType} (h : ¬DigestOk tx prevouts hash_ty) :
    ∀ {σ : List (KeyPair × List TapLeafHash)} {m m' : TapSigMap},
      signSigners tx prevouts hash_ty σ m = some m' →
        m' = m ∧ ∀ m2, signSigners tx prevouts hash_ty σ m2 = some m2 := by
  intro σ
  induction σ with
  | nil =>
    intro m m' hs
    refine ⟨by simpa [signSigners] using hs.symm, fun m2 => rfl⟩
  | cons e rest ih =>
    intro m m' hs
    rcases e with ⟨kp, vl⟩
    simp only [signSigners] at hs
    cases hl : signLeaves tx prevouts hash_ty kp vl m with
    | none => rw [hl] at hs; cases hs
    | some m1 =>
      rw [hl] at hs
      rcases signLeaves_some_of_not_ok h hl with ⟨rfl, rfl⟩
      rcases ih hs with ⟨h1, h2⟩
      exact ⟨h1, fun m2 => by simpa [signSigners, signLeaves] using h2 m2⟩

/-! ### Shape lemmas for the two signers and the top-level operation -/

theorem sign_taproot_top_key_eq (self : XPriv) (tx : Transaction) (prevouts : List TxOut)
    (input : Input) (hash_ty : SchnorrSighashType) :
    sign_taproot_top_key self tx prevouts input hash_ty =
      if input.tap_internal_key = some (self.to_keypair.x_only_public_key) then
        (get_sig tx prevouts hash_ty (self.to_keypair.tap_tweak input.tap_merkle_root) none).map
          (fun s => { input with tap_key_sig := some s })
      else some input := by
  unfold sign_taproot_top_key
  by_cases h : input.tap_internal_key = some (self.to_keypair.x_only_public_key)
  · simp only [if_pos h]
    cases hg : get_sig tx prevouts hash_ty (self.to_keypair.tap_tweak input.tap_merkle_root) none <;>
      simp [hg]
  · simp [h]

theorem sign_all_tapleaf_branches_eq (self : XPriv) (ctx : CryptoCtx) (tx : Transaction)
    (prevouts : List TxOut) (input : Input) (hash_ty : SchnorrSighashType) :
    sign_all_tapleaf_branches self ctx tx prevouts input hash_ty =
      (signSigners tx prevouts hash_ty (compute_matching_keys self ctx input.tap_key_origins)
          input.tap_script_sigs).map
        (fun m => { input with tap_script_sigs := m }) := by
  unfold sign_all_tapleaf_branches
  cases h : signSigners tx prevouts hash_ty (compute_matching_keys self ctx input.tap_key_origins)
      input.tap_script_sigs <;> simp [h]

theorem collectUtxosFrom_char (l : List Input) :
    ∀ n, collectUtxosFrom n l =
      match l.findIdx? (fun inp => inp.witness_utxo.isNone) with
      | some i => .error (n + i)
      | none => .ok (l.filterMap Input.witness_utxo) := by
  induction l with
  | nil => intro n; rfl
  | cons inp rest ih =>
    intro n
    cases hw : inp.witness_utxo with
    | none =>
      simp [collectUtxosFrom, hw, List.findIdx?_cons]
    | some u =>
      simp only [collectUtxosFrom, hw, List.findIdx?_cons, Option.isNone_some, Bool.false_eq_true,
        if_false, List.findIdx?_succ, ih (n + 1), List.filterMap_cons]
      cases hf : rest.findIdx? (fun inp => inp.witness_utxo.isNone) with
      | none => simp [hf, hw]
      | some i => simp [hf, hw, Nat.add_assoc, Nat.add_comm 1 i]

theorem collectUtxos_congr {l1 l2 : List Input}
    (h : l1.map Input.witness_utxo = l2.map Input.witness_utxo) :
    collectUtxos l1 = collectUtxos l2 := by
  unfold collectUtxos
  suffices hh : ∀ n, collectUtxosFrom n l1 = collectUtxosFrom n l2 from hh 0
  induction l1 generalizing l2 with
  | nil =>
    cases l2 with
    | nil => intro n; rfl
    | cons b l2 => simp at h
  | cons a l1 ih =>
    cases l2 with
    | nil => simp at h
    | cons b l2 =>
      simp only [List.map_cons, List.cons.injEq] at h
      intro n
      simp only [collectUtxosFrom, h.1]
      cases b.witness_utxo with
      | none => rfl
      | some u => rw [ih h.2]

theorem collectUtxos_set_eq {l : List Input} {idx : Nat} {inp v : Input}
    (hget : l[idx]? = some inp) (hw : v.witness_utxo = inp.witness_utxo) :
    collectUtxos (l.set idx v) = collectUtxos l := by
  refine collectUtxos_congr ?_
  rw [List.map_set, hw, list_set_of_getElem?]
  rw [List.getElem?_map, hget]
  rfl

theorem sign_psbt_input_mut_of_collect_err {self : XPriv} {ctx : CryptoCtx} {psbt : Psbt}
    {idx : Nat} {hash_ty : SchnorrSighashType} {i : Nat}
    (h : collectUtxos psbt.inputs = .error i) :
    sign_psbt_input_mut self ctx psbt idx hash_ty =
      some (psbt, .error (.NoUTXOAtIndex i)) := by
  unfold sign_psbt_input_mut
  rw [h]

theorem sign_psbt_input_mut_of_no_input {self : XPriv} {ctx : CryptoCtx} {psbt : Psbt}
    {idx : Nat} {hash_ty : SchnorrSighashType} {us : List TxOut}
    (hc : collectUtxos psbt.inputs = .ok us) (hg : psbt.inputs[idx]? = none) :
    sign_psbt_input_mut self ctx psbt idx hash_ty =
      some (psbt, .error (.NoInputAtIndex idx)) := by
  unfold sign_psbt_input_mut
  rw [hc, hg]

theorem sign_psbt_input_mut_of_input {self : XPriv} {ctx : CryptoCtx} {psbt : Psbt}
    {idx : Nat} {hash_ty : SchnorrSighashType} {us : List TxOut} {inp : Input}
    (hc : collectUtxos psbt.inputs = .ok us) (hg : psbt.inputs[idx]? = some inp) :
    sign_psbt_input_mut self ctx psbt idx hash_ty =
      match sign_taproot_top_key self psbt.extract_tx us inp hash_ty with
      | none => none
      | some input1 =>
        match sign_all_tapleaf_branches self ctx psbt.extract_tx us input1 hash_ty with
        | none => none
        | some input2 => some ({ psbt with inputs := psbt.inputs.set idx input2 }, .ok ()) := by
  unfold sign_psbt_input_mut
  rw [hc, hg]

theorem sign_psbt_input_mut_ok_decomp {self : XPriv} {ctx : CryptoCtx} {psbt psbt' : Psbt}
    {idx : Nat} {hash_ty : SchnorrSighashType}
    (h : sign_psbt_input_mut self ctx psbt idx hash_ty = some (psbt', Except.ok ())) :
    ∃ utxos inp inp1 m,
      collectUtxos psbt.inputs = .ok utxos ∧
      psbt.inputs[idx]? = some inp ∧
      sign_taproot_top_key self psbt.extract_tx utxos inp hash_ty = some inp1 ∧
      signSigners psbt.extract_tx utxos hash_ty
          (compute_matching_keys self ctx inp1.tap_key_origins) inp1.tap_script_sigs = some m ∧
      psbt' = { psbt with
                inputs := psbt.inputs.set idx { inp1 with tap_script_sigs := m } } := by
  cases hc : collectUtxos psbt.inputs with
  | error i =>
    rw [sign_psbt_input_mut_of_collect_err hc] at h
    cases h
  | ok utxos =>
    cases hg : psbt.inputs[idx]? with
    | none =>
      rw [sign_psbt_input_mut_of_no_input hc hg] at h
      cases h
    | some inp =>
      rw [sign_psbt_input_mut_of_input hc hg] at h
      cases ht : sign_taproot_top_key self psbt.extract_tx utxos inp hash_ty with
      | none => rw [ht] at h; cases h
      | some inp1 =>
        rw [ht] at h
        dsimp only at h
        rw [sign_all_tapleaf_branches_eq] at h
        cases hs : signSigners psbt.extract_tx utxos hash_ty
            (compute_matching_keys self ctx inp1.tap_key_origins) inp1.tap_script_sigs with
        | none => rw [hs] at h; cases h
        | some m =>
          rw [hs] at h
          dsimp only [Option.map] at h
          cases h
          exact ⟨utxos, inp, inp1, m, rfl, rfl, ht, hs, rfl⟩

theorem sign_psbt_input_mut_err_unchanged {self : XPriv} {ctx : CryptoCtx} {psbt psbt' : Psbt}
    {idx : Nat} {hash_ty : SchnorrSighashType} {e : PSBTSigningError}
    (h : sign_psbt_input_mut self ctx psbt idx hash_ty = some (psbt', Except.error e)) :
    psbt' = psbt := by
  cases hc : collectUtxos psbt.inputs with
  | error i =>
    rw [sign_psbt_input_mut_of_collect_err hc] at h
    cases h
    rfl
  | ok utxos =>
    cases hg : psbt.inputs[idx]? with
    | none =>
      rw [sign_psbt_input_mut_of_no_input hc hg] at h
      cases h
      rfl
    | some inp =>
      rw [sign_psbt_input_mut_of_input hc hg] at h
      cases ht : sign_taproot_top_key self psbt.extract_tx utxos inp hash_ty with
      | none => rw [ht] at h; cases h
      | some inp1 =>
        rw [ht] at h
        dsimp only at h
        cases hb : sign_all_tapleaf_branches self ctx psbt.extract_tx utxos inp1 hash_ty with
        | none => rw [hb] at h; cases h
        | some inp2 => rw [hb] at h; cases h

/-! ### Key Matcher lemmas -/

theorem compute_matching_keys_cons (self : XPriv) (ctx : CryptoCtx)
    (e : XOnlyPublicKey × (List TapLeafHash × KeySource))
    (rest : List (XOnlyPublicKey × (List TapLeafHash × KeySource))) :
    compute_matching_keys self ctx (e :: rest) =
      match matchKeySpec self ctx e with
      | none => compute_matching_keys self ctx rest
      | some p => p :: compute_matching_keys self ctx rest := by
  by_cases hf : e.2.2.1 = self.fingerprint
  · cases hd : derive_priv ctx self e.2.2.2 with
    | none =>
      unfold compute_matching_keys matchKeySpec
      simp [List.filter_cons, List.filterMap_cons, hf, hd]
    | some k =>
      by_cases hx : k.to_keypair.x_only_public_key = e.1 <;>
        · unfold compute_matching_keys matchKeySpec
          simp [List.filter_cons, List.filterMap_cons, hf, hd, hx]
  · unfold compute_matching_keys matchKeySpec
    simp [List.filter_cons, hf]

theorem compute_matching_keys_eq_filterMap (self : XPriv) (ctx : CryptoCtx)
    (table : List (XOnlyPublicKey × (List TapLeafHash × KeySource))) :
    compute_matching_keys self ctx table = table.filterMap (matchKeySpec self ctx) := by
  induction table with
  | nil => rfl
  | cons e rest ih =>
    rw [compute_matching_keys_cons, List.filterMap_cons, ih]
    cases matchKeySpec self ctx e <;> rfl

theorem compute_matching_keys_mem (self : XPriv) (ctx : CryptoCtx)
    (table : List (XOnlyPublicKey × (List TapLeafHash × KeySource)))
    (kp : KeyPair) (vl : List TapLeafHash) :
    (kp, vl) ∈ compute_matching_keys self ctx table ↔
      ∃ x ks, (x, (vl, ks)) ∈ table ∧ ks.1 = self.fingerprint ∧
        ∃ k, derive_priv ctx self ks.2 = some k ∧ kp = k.to_keypair ∧
          kp.x_only_public_key = x := by
  rw [compute_matching_keys_eq_filterMap, List.mem_filterMap]
  constructor
  · rintro ⟨e, he, hme⟩
    rcases e with ⟨x, vl', ks⟩
    unfold matchKeySpec at hme
    split_ifs at hme with hf
    · cases hd : derive_priv ctx self ks.2 with
      | none =>
        rw [hd] at hme
        dsimp only at hme
        cases hme
      | some k =>
        rw [hd] at hme
        dsimp only at hme
        split_ifs at hme with hx
        obtain ⟨rfl, rfl⟩ : k.to_keypair = kp ∧ vl' = vl := by simpa using hme
        exact ⟨x, ks, he, hf, k, hd, rfl, hx⟩
  · rintro ⟨x, ks, hmem, hf, k, hd, rfl, hx⟩
    refine ⟨(x, (vl, ks)), hmem, ?_⟩
    unfold matchKeySpec
    simp [hf, hd, hx]

theorem matched_pub_mem_keys {self : XPriv} {ctx : CryptoCtx}
    {table : List (XOnlyPublicKey × (List TapLeafHash × KeySource))}
    {kp : KeyPair} {vl : List TapLeafHash}
    (h : (kp, vl) ∈ compute_matching_keys self ctx table) :
    kp.x_only_public_key ∈ table.map Prod.fst := by
  rcases (compute_matching_keys_mem self ctx table kp vl).1 h with
    ⟨x, ks, hmem, _, k, _, _, hx⟩
  rw [hx]
  exact List.mem_map_of_mem Prod.fst hmem

theorem compute_matching_keys_drop (self : XPriv) (ctx : CryptoCtx)
    (l1 l2 : List (XOnlyPublicKey × (List TapLeafHash × KeySource)))
    (e : XOnlyPublicKey × (List TapLeafHash × KeySource))
    (h : matchKeySpec self ctx e = none) :
    compute_matching_keys self ctx (l1 ++ e :: l2) =
      compute_matching_keys self ctx (l1 ++ l2) := by
  rw [compute_matching_keys_eq_filterMap, compute_matching_keys_eq_filterMap,
    List.filterMap_append, List.filterMap_append, List.filterMap_cons, h]

/-! ### Key-path signer shape lemmas -/

theorem sign_taproot_top_key_some_cases {self : XPriv} {tx : Transaction}
    {prevouts : List TxOut} {input : Input} {hash_ty : SchnorrSighashType} {r : Input}
    (h : sign_taproot_top_key self tx prevouts input hash_ty = some r) :
    (input.tap_internal_key ≠ some (self.to_keypair.x_only_public_key) ∧ r = input) ∨
    (input.tap_internal_key = some (self.to_keypair.x_only_public_key) ∧
      DigestOk tx prevouts hash_ty ∧
      r = { input with
            tap_key_sig := some (canonSig tx prevouts hash_ty
              (self.to_keypair.tap_tweak input.tap_merkle_root) none) }) := by
  rw [sign_taproot_top_key_eq] at h
  split_ifs at h with hk
  · rw [get_sig_char] at h
    split_ifs at h with hd
    · dsimp only [Option.map] at h
      exact Or.inr ⟨hk, hd, (Option.some.inj h).symm⟩
    · dsimp only [Option.map] at h
      cases h
  · exact Or.inl ⟨hk, (Option.some.inj h).symm⟩

theorem sign_taproot_top_key_preserves {self : XPriv} {tx : Transaction}
    {prevouts : List TxOut} {input : Input} {hash_ty : SchnorrSighashType} {r : Input}
    (h : sign_taproot_top_key self tx prevouts input hash_ty = some r) :
    r.witness_utxo = input.witness_utxo ∧ r.tap_script_sigs = input.tap_script_sigs ∧
    r.tap_internal_key = input.tap_internal_key ∧ r.tap_merkle_root = input.tap_merkle_root ∧
    r.tap_key_origins = input.tap_key_origins := by
  rcases sign_taproot_top_key_some_cases h with ⟨_, rfl⟩ | ⟨_, _, rfl⟩ <;>
    exact ⟨rfl, rfl, rfl, rfl, rfl⟩

theorem sign_taproot_top_key_origins_congr (self : XPriv) (tx : Transaction)
    (prevouts : List TxOut) (input : Input) (hash_ty : SchnorrSighashType)
    (o : List (XOnlyPublicKey × (List TapLeafHash × KeySource))) :
    sign_taproot_top_key self tx prevouts { input with tap_key_origins := o } hash_ty =
      (sign_taproot_top_key self tx prevouts input hash_ty).map
        (fun r => { r with tap_key_origins := o }) := by
  rw [sign_taproot_top_key_eq, sign_taproot_top_key_eq]
  by_cases hk : input.tap_internal_key = some (self.to_keypair.x_only_public_key)
  · simp only [hk, if_pos]
    cases hg : get_sig tx prevouts hash_ty (self.to_keypair.tap_tweak input.tap_merkle_root)
      none <;> simp [hg]
  · simp only [hk, if_neg, not_false_iff, Option.map_some']

/-! ### Record update eta lemmas -/

theorem input_update_key_sig_eta {inp : Input} {s : Option SchnorrSig}
    (h : inp.tap_key_sig = s) : ({ inp with tap_key_sig := s } : Input) = inp := by
  cases inp
  subst h
  rfl

theorem input_update_sigs_eta {inp : Input} {m : TapSigMap}
    (h : inp.tap_script_sigs = m) : ({ inp with tap_script_sigs := m } : Input) = inp := by
  cases inp
  subst h
  rfl

theorem collectUtxos_char (l : List Input) :
    collectUtxos l =
      match l.findIdx? (fun inp => inp.witness_utxo.isNone) with
      | some i => .error i
      | none => .ok (l.filterMap Input.witness_utxo) := by
  rw [collectUtxos, collectUtxosFrom_char l 0]
  cases h : l.findIdx? (fun inp => inp.witness_utxo.isNone) <;> simp

theorem canonFor_input_index (tx : Transaction) (prevouts : List TxOut)
    (hash_ty : SchnorrSighashType) (k : SigKey) :
    (canonFor tx prevouts hash_ty k).sig.msg.digest.input_index = 0 := by
  rcases k with ⟨x, tlh⟩
  cases x <;> rfl

theorem canonFor_leaf_context (tx : Transaction) (prevouts : List TxOut)
    (hash_ty : SchnorrSighashType) (k : SigKey) :
    (canonFor tx prevouts hash_ty k).sig.msg.digest.leaf_context =
      some (k.2, DEFAULT_CODESEP) := by
  rcases k with ⟨x, tlh⟩
  cases x <;> rfl

theorem signSigners_lookup_cases {tx : Transaction} {prevouts : List TxOut}
    {hash_ty : SchnorrSighashType} {σ : List (KeyPair × List TapLeafHash)} {m m' : TapSigMap}
    (hs : signSigners tx prevouts hash_ty σ m = some m') (k : SigKey) :
    btLookup k m' = btLookup k m ∨ btLookup k m' = some (canonFor tx prevouts hash_ty k) := by
  by_cases hd : DigestOk tx prevouts hash_ty
  · rw [signSigners_ok hd] at hs
    obtain rfl := Option.some.inj hs
    rw [btLookup_btApplyAll (canonFor tx prevouts hash_ty)
      (signersInserts_consistent tx prevouts hash_ty σ)]
    split_ifs with hm
    · exact Or.inr rfl
    · exact Or.inl rfl
  · rcases signSigners_not_ok hd hs with ⟨rfl, _⟩
    exact Or.inl rfl

theorem signSigners_not_ok_empty {tx : Transaction} {prevouts : List TxOut}
    {hash_ty : SchnorrSighashType} (h : ¬DigestOk tx prevouts hash_ty) :
    ∀ {σ : List (KeyPair × List TapLeafHash)} {m m' : TapSigMap},
      signSigners tx prevouts hash_ty σ m = some m' →
        ∀ p ∈ σ, p.2 = ([] : List TapLeafHash) := by
  intro σ
  induction σ with
  | nil =>
    intro m m' hs p hp
    simp at hp
  | cons e rest ih =>
    intro m m' hs p hp
    rcases e with ⟨kp, vl⟩
    simp only [signSigners] at hs
    cases hl : signLeaves tx prevouts hash_ty kp vl m with
    | none => rw [hl] at hs; cases hs
    | some m1 =>
      rw [hl] at hs
      rcases signLeaves_some_of_not_ok h hl with ⟨rfl, rfl⟩
      rcases List.mem_cons.1 hp with rfl | hp'
      · rfl
      · exact ih hs p hp'

theorem sign_all_tapleaf_branches_some_shape {self : XPriv} {ctx : CryptoCtx}
    {tx : Transaction} {prevouts : List TxOut} {inp inp' : Input}
    {hash_ty : SchnorrSighashType}
    (h : sign_all_tapleaf_branches self ctx tx prevouts inp hash_ty = some inp') :
    ∃ m, signSigners tx prevouts hash_ty (compute_matching_keys self ctx inp.tap_key_origins)
        inp.tap_script_sigs = some m ∧ inp' = { inp with tap_script_sigs := m } := by
  rw [sign_all_tapleaf_branches_eq] at h
  cases hs : signSigners tx prevouts hash_ty (compute_matching_keys self ctx inp.tap_key_origins)
      inp.tap_script_sigs with
  | none => rw [hs] at h; cases h
  | some m =>
    rw [hs] at h
    dsimp only [Option.map] at h
    exact ⟨m, rfl, (Option.some.inj h).symm⟩

theorem nodup_keys_unique {K V : Type} {l : List (K × V)}
    (h : (l.map Prod.fst).Nodup) {x : K} {a b : V}
    (h1 : (x, a) ∈ l) (h2 : (x, b) ∈ l) : a = b := by
  induction l with
  | nil => cases h1
  | cons p rest ih =>
    simp only [List.map_cons, List.nodup_cons] at h
    rcases List.mem_cons.1 h1 with rfl | h1'
    · rcases List.mem_cons.1 h2 with heq | h2'
      · exact (congrArg Prod.snd heq).symm
      · exact absurd (List.mem_map_of_mem Prod.fst h2') h.1
    · rcases List.mem_cons.1 h2 with rfl | h2'
      · exact absurd (List.mem_map_of_mem Prod.fst h1') h.1
      · exact ih h.2 h1' h2'

theorem mem_iff_btLookup {K V : Type} [DecidableEq K] {m : List (K × V)}
    (h : (m.map Prod.fst).Nodup) (p : K × V) : p ∈ m ↔ btLookup p.1 m = some p.2 := by
  induction m with
  | nil => simp [btLookup]
  | cons q rest ih =>
    simp only [List.map_cons, List.nodup_cons] at h
    rcases p with ⟨k, v⟩
    rcases q with ⟨k', v'⟩
    by_cases hk : k' = k
    · subst hk
      simp only [btLookup, if_pos, List.mem_cons]
      constructor
      · rintro (heq | hmem')
        · obtain rfl : v = v' := by simpa using heq
          rfl
        · exact absurd (List.mem_map_of_mem Prod.fst hmem') h.1
      · intro hlk
        exact Or.inl (by rw [Option.some.inj hlk])
    · simp only [btLookup, hk, if_neg, not_false_iff, List.mem_cons]
      rw [← ih h.2]
      constructor
      · rintro (heq | hmem')
        · exact absurd (congrArg Prod.fst heq).symm hk
        · exact hmem'
      · exact Or.inr

theorem psbt_update_inputs_eta {p : Psbt} {l : List Input} (h : p.inputs = l) :
    ({ p with inputs := l } : Psbt) = p := by
  cases p
  subst h
  rfl

/-! ### Claim theorems -/

/-- C1 (amended): the key-path signature is added if and only if the root key
pair's **untweaked** public key equals the input's recorded internal key; when
it is added it is produced with the keypair tweaked by the input's script-tree
commitment, and on mismatch the input record is returned unchanged, with no
error. -/
theorem keypath_signature_condition (self : XPriv) (tx : Transaction) (prevouts : List TxOut)
    (input : Input) (hash_ty : SchnorrSighashType) :
    (input.tap_internal_key ≠ some (self.to_keypair.x_only_public_key) →
      sign_taproot_top_key self tx prevouts input hash_ty = some input) ∧
    (input.tap_internal_key = some (self.to_keypair.x_only_public_key) →
      sign_taproot_top_key self tx prevouts input hash_ty =
        (get_sig tx prevouts hash_ty (self.to_keypair.tap_tweak input.tap_merkle_root) none).map
          (fun s => { input with tap_key_sig := some s })) := by
  constructor
  · intro h
    rw [sign_taproot_top_key_eq, if_neg h]
  · intro h
    rw [sign_taproot_top_key_eq, if_pos h]

/-- C1 witness: with no recorded internal key the input is returned
unchanged. -/
theorem keypath_signature_condition_witness :
    sign_taproot_top_key (XPriv.master 0) exTx [exTxOut] exInputNoKey SchnorrSighashType.All =
      some exInputNoKey :=
  (keypath_signature_condition (XPriv.master 0) exTx [exTxOut] exInputNoKey
    SchnorrSighashType.All).1 (by decide)

/-- C1 counterexample: tweaking the root key pair by the input's commitment
yields a public key **different** from the recorded internal key, yet the
key-path signature is added — the code compares the untweaked key, so the
claimed iff fails at this input. -/
theorem keypath_signature_condition_counterexample :
    ((XPriv.master 0).to_keypair.tap_tweak exInputC1.tap_merkle_root).x_only_public_key ≠
        exPk ∧
    exInputC1.tap_internal_key = some exPk ∧
    exInputC1.tap_key_sig = none ∧
    (sign_taproot_top_key (XPriv.master 0) exTx [exTxOut] exInputC1
        SchnorrSighashType.All).bind Input.tap_key_sig ≠ none := by decide

/-- C3: failures of `sign_psbt_input_mut` mutate nothing: every error return
carries the PSBT unchanged, and the two failure conditions (missing previous
output; out-of-range target index) return their corresponding error together
with the untouched PSBT. -/
theorem sign_input_error_no_mutation (self : XPriv) (ctx : CryptoCtx) (psbt : Psbt)
    (idx : Nat) (hash_ty : SchnorrSighashType) :
    (∀ psbt' e, sign_psbt_input_mut self ctx psbt idx hash_ty = some (psbt', Except.error e) →
      psbt' = psbt) ∧
    (∀ i, psbt.inputs.findIdx? (fun inp => inp.witness_utxo.isNone) = some i →
      sign_psbt_input_mut self ctx psbt idx hash_ty =
        some (psbt, Except.error (.NoUTXOAtIndex i))) ∧
    (psbt.inputs.findIdx? (fun inp => inp.witness_utxo.isNone) = none →
      psbt.inputs.length ≤ idx →
      sign_psbt_input_mut self ctx psbt idx hash_ty =
        some (psbt, Except.error (.NoInputAtIndex idx))) := by
  refine ⟨fun psbt' e h => sign_psbt_input_mut_err_unchanged h, fun i hi => ?_, fun hn hlen => ?_⟩
  · refine sign_psbt_input_mut_of_collect_err ?_
    rw [collectUtxos_char, hi]
  · refine sign_psbt_input_mut_of_no_input
      (show collectUtxos psbt.inputs = .ok (psbt.inputs.filterMap Input.witness_utxo) by
        rw [collectUtxos_char, hn])
      (List.getElem?_eq_none hlen)

/-- C3 witness: a PSBT whose only input lacks a previous output fails with
`NoUTXOAtIndex 0` and is returned unchanged. -/
theorem sign_input_error_no_mutation_witness :
    sign_psbt_input_mut (XPriv.master 0) exCtx exPsbtNoUtxo 0 SchnorrSighashType.All =
      some (exPsbtNoUtxo, Except.error (.NoUTXOAtIndex 0)) :=
  (sign_input_error_no_mutation (XPriv.master 0) exCtx exPsbtNoUtxo 0
    SchnorrSighashType.All).2.1 0 (by decide)

/-- C4: `sign_psbt_input_mut` fails exactly in this order: first the lowest
index lacking a `witness_utxo` (even when unrelated to the target index and
even when the target index is also out of range), then an out-of-range target
index, and otherwise it runs the key-path signer followed by the tapleaf
signer on the targeted record and returns `Ok(())` (or panics inside the
sighash engine, modelled as `none`). -/
theorem sign_input_failure_order (self : XPriv) (ctx : CryptoCtx) (psbt : Psbt)
    (idx : Nat) (hash_ty : SchnorrSighashType) :
    (∀ i, psbt.inputs.findIdx? (fun inp => inp.witness_utxo.isNone) = some i →
      sign_psbt_input_mut self ctx psbt idx hash_ty =
        some (psbt, Except.error (.NoUTXOAtIndex i))) ∧
    (psbt.inputs.findIdx? (fun inp => inp.witness_utxo.isNone) = none →
      psbt.inputs.length ≤ idx →
      sign_psbt_input_mut self ctx psbt idx hash_ty =
        some (psbt, Except.error (.NoInputAtIndex idx))) ∧
    (psbt.inputs.findIdx? (fun inp => inp.witness_utxo.isNone) = none →
      ∀ inp, psbt.inputs[idx]? = some inp →
        sign_psbt_input_mut self ctx psbt idx hash_ty = none ∨
        ∃ inp1 inp2,
          sign_taproot_top_key self psbt.extract_tx
              (psbt.inputs.filterMap Input.witness_utxo) inp hash_ty = some inp1 ∧
          sign_all_tapleaf_branches self ctx psbt.extract_tx
              (psbt.inputs.filterMap Input.witness_utxo) inp1 hash_ty = some inp2 ∧
          sign_psbt_input_mut self ctx psbt idx hash_ty =
            some ({ psbt with inputs := psbt.inputs.set idx inp2 }, Except.ok ())) := by
  refine ⟨fun i hi => ?_, fun hn hlen => ?_, fun hn inp hg => ?_⟩
  · refine sign_psbt_input_mut_of_collect_err ?_
    rw [collectUtxos_char, hi]
  · refine sign_psbt_input_mut_of_no_input
      (show collectUtxos psbt.inputs = .ok (psbt.inputs.filterMap Input.witness_utxo) by
        rw [collectUtxos_char, hn])
      (List.getElem?_eq_none hlen)
  · have hc : collectUtxos psbt.inputs = .ok (psbt.inputs.filterMap Input.witness_utxo) := by
      rw [collectUtxos_char, hn]
    cases ht : sign_taproot_top_key self psbt.extract_tx
        (psbt.inputs.filterMap Input.witness_utxo) inp hash_ty with
    | none =>
      left
      rw [sign_psbt_input_mut_of_input hc hg, ht]
    | some inp1 =>
      cases hb : sign_all_tapleaf_branches self ctx psbt.extract_tx
          (psbt.inputs.filterMap Input.witness_utxo) inp1 hash_ty with
      | none =>
        left
        rw [sign_psbt_input_mut_of_input hc hg, ht]
        dsimp only
        rw [hb]
      | some inp2 =>
        right
        refine ⟨inp1, inp2, rfl, hb, ?_⟩
        rw [sign_psbt_input_mut_of_input hc hg, ht]
        dsimp only
        rw [hb]

/-- C4 witness: the missing-previous-output error wins even when the target
index is also out of range, and reports the lowest missing index. -/
theorem sign_input_failure_order_witness :
    sign_psbt_input_mut (XPriv.master 0) exCtx exPsbtNoUtxo 3 SchnorrSighashType.All =
      some (exPsbtNoUtxo, Except.error (.NoUTXOAtIndex 0)) :=
  (sign_input_failure_order (XPriv.master 0) exCtx exPsbtNoUtxo 3
    SchnorrSighashType.All).1 0 (by decide)

/-- C9 (amended): with a complete previous-output set, at least one input,
and — when the base sighash type is `Single` — at least one output, the digest
computation inside `get_sig` cannot fail, so `get_sig` is total and returns
the canonical signature. -/
theorem get_sig_total (tx : Transaction) (prevouts : List TxOut)
    (hash_ty : SchnorrSighashType) (kp : KeyPair) (path : Option (TapLeafHash × Nat))
    (h1 : prevouts.length = tx.input.length) (h2 : 0 < tx.input.length)
    (h3 : hash_ty.split_anyonecanpay_flag.1 = SchnorrSighashType.Single →
      0 < tx.output.length) :
    get_sig tx prevouts hash_ty kp path = some (canonSig tx prevouts hash_ty kp path) := by
  rw [get_sig_char, if_pos]
  exact ⟨h1, fun _ => by omega, fun hs => by have := h3 hs; omega⟩

/-- C9 witness: on a one-input one-output transaction with complete prevouts
the digest computation succeeds. -/
theorem get_sig_total_witness :
    get_sig exTx [exTxOut] SchnorrSighashType.All (XPriv.master 0).to_keypair none =
      some (canonSig exTx [exTxOut] SchnorrSighashType.All (XPriv.master 0).to_keypair none) :=
  get_sig_total exTx [exTxOut] SchnorrSighashType.All (XPriv.master 0).to_keypair none
    (by decide) (by decide) (by decide)

/-- C9 counterexample: the claim's precondition (complete prevouts, one
input) holds, yet with `SIGHASH_SINGLE` and no corresponding output the
digest computation fails and the `expect` is reachable — `get_sig` is not
total under the claim's precondition alone. -/
theorem get_sig_total_counterexample :
    ([exTxOut] : List TxOut).length = exTxNoOut.input.length ∧
    0 < exTxNoOut.input.length ∧
    get_sig exTxNoOut [exTxOut] SchnorrSighashType.Single (XPriv.master 0).to_keypair none =
      none := by decide

/-- C2: every signature produced by `sign_psbt_input_mut` — the key-path
signature as well as every tapleaf signature — is computed over the taproot
digest for input position 0, because `get_sig` passes the constant 0 to
`taproot_signature_hash`; signatures already present before the call are the
only ones that may commit to a different position. -/
theorem sigs_commit_to_input_zero (self : XPriv) (ctx : CryptoCtx) (psbt psbt' : Psbt)
    (idx : Nat) (hash_ty : SchnorrSighashType) (inp inp' : Input)
    (h : sign_psbt_input_mut self ctx psbt idx hash_ty = some (psbt', Except.ok ()))
    (hi : psbt.inputs[idx]? = some inp) (hi' : psbt'.inputs[idx]? = some inp') :
    (∀ s, inp'.tap_key_sig = some s →
      inp.tap_key_sig = some s ∨ s.sig.msg.digest.input_index = 0) ∧
    (∀ k s, btLookup k inp'.tap_script_sigs = some s →
      btLookup k inp.tap_script_sigs = some s ∨ s.sig.msg.digest.input_index = 0) := by
  rcases sign_psbt_input_mut_ok_decomp h with ⟨utxos, inp0, inp1, m, hc, hg, ht, hs, rfl⟩
  rw [Option.some.inj (hg.symm.trans hi)] at ht
  obtain ⟨hlt, -⟩ := List.getElem?_eq_some_iff.mp hg
  obtain rfl : ({ inp1 with tap_script_sigs := m } : Input) = inp' := by
    rw [show ({ psbt with
          inputs := psbt.inputs.set idx { inp1 with tap_script_sigs := m } } : Psbt).inputs =
        psbt.inputs.set idx { inp1 with tap_script_sigs := m } from rfl] at hi'
    rw [List.getElem?_set_self (by simpa using hlt)] at hi'
    exact Option.some.inj hi'
  constructor
  · intro s hks
    rcases sign_taproot_top_key_some_cases ht with ⟨-, rfl⟩ | ⟨-, -, rfl⟩
    · exact Or.inl hks
    · right
      have hsc : s = canonSig psbt.extract_tx utxos hash_ty
          (self.to_keypair.tap_tweak inp.tap_merkle_root) none := (Option.some.inj hks).symm
      subst hsc
      rfl
  · intro k s hks
    have hpres := (sign_taproot_top_key_preserves ht).2.1
    rcases signSigners_lookup_cases hs k with hcase | hcase
    · left
      rw [← hpres, ← hcase]
      exact hks
    · right
      have hsc : s = canonFor psbt.extract_tx utxos hash_ty k := by
        have := hks.symm.trans hcase
        exact Option.some.inj this
      subst hsc
      exact canonFor_input_index _ _ _ _

/-- C2 witness: a full signing run on a concrete PSBT that produces both a
key-path and a tapleaf signature; every produced signature commits to input
position 0. -/
theorem sigs_commit_to_input_zero_witness :
    (∀ s, exInputBothSigned.tap_key_sig = some s →
      exInputBoth.tap_key_sig = some s ∨ s.sig.msg.digest.input_index = 0) ∧
    (∀ k s, btLookup k exInputBothSigned.tap_script_sigs = some s →
      btLookup k exInputBoth.tap_script_sigs = some s ∨ s.sig.msg.digest.input_index = 0) :=
  sigs_commit_to_input_zero (XPriv.master 0) exCtx exPsbtBoth exPsbtBothSigned 0
    SchnorrSighashType.All exInputBoth exInputBothSigned (by decide) (by decide) (by decide)

/-- C5: the Key Matcher yields exactly the entries whose fingerprint equals
the store's, whose derivation succeeds, and whose re-derived public key
equals the recorded one — it equals an entry-wise `filterMap` of the
spec-side per-entry decision (so no entry yields more than one pair), and
membership in the result is characterized accordingly; failing entries are
dropped with no error. -/
theorem compute_matching_keys_char (self : XPriv) (ctx : CryptoCtx)
    (table : List (XOnlyPublicKey × (List TapLeafHash × KeySource))) :
    compute_matching_keys self ctx table = table.filterMap (matchKeySpec self ctx) ∧
    ∀ kp vl, (kp, vl) ∈ compute_matching_keys self ctx table ↔
      ∃ x ks, (x, (vl, ks)) ∈ table ∧ ks.1 = self.fingerprint ∧
        ∃ k, derive_priv ctx self ks.2 = some k ∧ kp = k.to_keypair ∧
          kp.x_only_public_key = x :=
  ⟨compute_matching_keys_eq_filterMap self ctx table,
    fun kp vl => compute_matching_keys_mem self ctx table kp vl⟩

/-- C5 witness: the example table's single entry (matching fingerprint,
successful derivation, matching public key) is yielded. -/
theorem compute_matching_keys_char_witness :
    (exDerived.to_keypair, [7]) ∈ compute_matching_keys (XPriv.master 0) exCtx exOrigins :=
  ((compute_matching_keys_char (XPriv.master 0) exCtx exOrigins).2
    exDerived.to_keypair [7]).mpr
    ⟨exPubD, (XPriv.fingerprint (XPriv.master 0), [1]), by decide, rfl,
      exDerived, rfl, rfl, rfl⟩

/-- C7: for every matched (key, leaf-set) pair and every leaf of the set, the
tapleaf signer invokes the sighash engine with that leaf and the code
separator sentinel `0xffffffff`, signs with the untweaked derived keypair,
and stores the result in `tap_script_sigs` under (public half, leaf),
overwriting any prior binding; the key-path signature, by contrast, is
produced with the tweaked keypair. -/
theorem tapleaf_signature_placement (self : XPriv) (ctx : CryptoCtx) (tx : Transaction)
    (prevouts : List TxOut) (inp inp' : Input) (hash_ty : SchnorrSighashType)
    (h : sign_all_tapleaf_branches self ctx tx prevouts inp hash_ty = some inp') :
    (∀ kp vl, (kp, vl) ∈ compute_matching_keys self ctx inp.tap_key_origins →
      ∀ tlh ∈ vl,
        btLookup (kp.x_only_public_key, tlh) inp'.tap_script_sigs =
          some (canonSig tx prevouts hash_ty kp (some (tlh, DEFAULT_CODESEP))) ∧
        ∃ k, kp = KeyPair.ofXPriv k) ∧
    (∀ r s, sign_taproot_top_key self tx prevouts inp hash_ty = some r →
      r.tap_key_sig = some s → r.tap_key_sig ≠ inp.tap_key_sig →
      s = canonSig tx prevouts hash_ty (self.to_keypair.tap_tweak inp.tap_merkle_root) none) := by
  rcases sign_all_tapleaf_branches_some_shape h with ⟨m, hs, rfl⟩
  constructor
  · intro kp vl hmem tlh htlh
    constructor
    · by_cases hd : DigestOk tx prevouts hash_ty
      · rw [signSigners_ok hd] at hs
        obtain rfl := Option.some.inj hs
        show btLookup (kp.x_only_public_key, tlh)
          (btApplyAll (signersInserts tx prevouts hash_ty
            (compute_matching_keys self ctx inp.tap_key_origins)) inp.tap_script_sigs) = _
        rw [btLookup_btApplyAll (canonFor tx prevouts hash_ty)
          (signersInserts_consistent tx prevouts hash_ty _)]
        rw [if_pos ((mem_keys_signersInserts tx prevouts hash_ty _ _).mpr
          ⟨kp, vl, tlh, hmem, htlh, rfl⟩)]
        simp [canonFor, KeyPair.x_only_public_key]
      · have := signSigners_not_ok_empty hd hs (kp, vl) hmem
        simp only at this
        subst this
        simp at htlh
    · rcases (compute_matching_keys_mem self ctx inp.tap_key_origins kp vl).1 hmem with
        ⟨x, ks, -, -, k, -, rfl, -⟩
      exact ⟨k, rfl⟩
  · intro r s ht hks hne
    rcases sign_taproot_top_key_some_cases ht with ⟨-, rfl⟩ | ⟨-, -, rfl⟩
    · exact absurd rfl hne
    · exact (Option.some.inj hks).symm

/-- C7 witness: on the concrete expected-signer table the tapleaf signature
is stored under (derived public key, leaf 7) with the sentinel code
separator, signed by the untweaked derived keypair. -/
theorem tapleaf_signature_placement_witness :
    btLookup (exDerived.to_keypair.x_only_public_key, 7) exInputOrigSigned.tap_script_sigs =
      some (canonSig exTx [exTxOut] SchnorrSighashType.All exDerived.to_keypair
        (some (7, DEFAULT_CODESEP))) ∧
    ∃ k, exDerived.to_keypair = KeyPair.ofXPriv k :=
  (tapleaf_signature_placement (XPriv.master 0) exCtx exTx [exTxOut] exInputOrig
    exInputOrigSigned SchnorrSighashType.All (by decide)).1
    exDerived.to_keypair [7] (by decide) 7 (by decide)

/-- C10: when one `sign_psbt_input_mut` invocation produces both a key-path
signature and a tapleaf signature, the two are never equal: the key-path
signature is over the no-leaf digest (with the tweaked key), while every
tapleaf signature is over that leaf's digest (with the untweaked key). -/
theorem keypath_and_tapleaf_sigs_differ (self : XPriv) (ctx : CryptoCtx) (psbt psbt' : Psbt)
    (idx : Nat) (hash_ty : SchnorrSighashType) (inp inp' : Input) (s1 s2 : SchnorrSig)
    (k : SigKey)
    (h : sign_psbt_input_mut self ctx psbt idx hash_ty = some (psbt', Except.ok ()))
    (hi : psbt.inputs[idx]? = some inp) (hi' : psbt'.inputs[idx]? = some inp')
    (h1 : inp'.tap_key_sig = some s1) (h1' : inp.tap_key_sig ≠ some s1)
    (h2 : btLookup k inp'.tap_script_sigs = some s2)
    (h2' : btLookup k inp.tap_script_sigs ≠ some s2) :
    s1.sig.msg.digest.leaf_context = none ∧
    s2.sig.msg.digest.leaf_context = some (k.2, DEFAULT_CODESEP) ∧
    s1 ≠ s2 := by
  rcases sign_psbt_input_mut_ok_decomp h with ⟨utxos, inp0, inp1, m, hc, hg, ht, hs, rfl⟩
  rw [Option.some.inj (hg.symm.trans hi)] at ht
  obtain ⟨hlt, -⟩ := List.getElem?_eq_some_iff.mp hg
  obtain rfl : ({ inp1 with tap_script_sigs := m } : Input) = inp' := by
    rw [show ({ psbt with
          inputs := psbt.inputs.set idx { inp1 with tap_script_sigs := m } } : Psbt).inputs =
        psbt.inputs.set idx { inp1 with tap_script_sigs := m } from rfl] at hi'
    rw [List.getElem?_set_self (by simpa using hlt)] at hi'
    exact Option.some.inj hi'
  have hkey : s1.sig.msg.digest.leaf_context = none := by
    rcases sign_taproot_top_key_some_cases ht with ⟨-, rfl⟩ | ⟨-, -, rfl⟩
    · exact absurd h1 h1'
    · have hsc : s1 = canonSig psbt.extract_tx utxos hash_ty
          (self.to_keypair.tap_tweak inp.tap_merkle_root) none := (Option.some.inj h1).symm
      subst hsc
      rfl
  have hleaf : s2.sig.msg.digest.leaf_context = some (k.2, DEFAULT_CODESEP) := by
    have hpres := (sign_taproot_top_key_preserves ht).2.1
    rcases signSigners_lookup_cases hs k with hcase | hcase
    · exact absurd (by rw [← hpres, ← hcase]; exact h2) h2'
    · have hsc : s2 = canonFor psbt.extract_tx utxos hash_ty k :=
        Option.some.inj (h2.symm.trans hcase)
      subst hsc
      exact canonFor_leaf_context _ _ _ _
  refine ⟨hkey, hleaf, fun heq => ?_⟩
  rw [heq, hleaf] at hkey
  cases hkey

/-- C10 witness: the concrete signing run that produces both signatures;
they differ. -/
theorem keypath_and_tapleaf_sigs_differ_witness :
    exSigKeyPath.sig.msg.digest.leaf_context = none ∧
    exSigLeaf.sig.msg.digest.leaf_context = some (7, DEFAULT_CODESEP) ∧
    exSigKeyPath ≠ exSigLeaf :=
  keypath_and_tapleaf_sigs_differ (XPriv.master 0) exCtx exPsbtBoth exPsbtBothSigned 0
    SchnorrSighashType.All exInputBoth exInputBothSigned exSigKeyPath exSigLeaf
    (exPubD, 7) (by decide) (by decide) (by decide) (by decide) (by decide) (by decide)
    (by decide)

/-- C6: an expected-signer entry whose Key Origin fingerprint matches the
store but whose recorded public key differs from the key re-derived along the
recorded path contributes nothing: the Key Matcher yields the same signers as
if the entry were absent, no tapleaf signature keyed by that entry's public
key is produced by the call, and the call's outcome status (error, success,
or panic) is identical to that of the PSBT with the entry removed — in
particular no error is raised on account of the entry. -/
theorem origin_mismatch_ignored (self : XPriv) (ctx : CryptoCtx) (psbt : Psbt) (idx : Nat)
    (hash_ty : SchnorrSighashType) (inp : Input) (x : XOnlyPublicKey)
    (vl : List TapLeafHash) (path : List Nat)
    (l1 l2 : List (XOnlyPublicKey × (List TapLeafHash × KeySource)))
    (hin : psbt.inputs[idx]? = some inp)
    (horig : inp.tap_key_origins = l1 ++ (x, (vl, (self.fingerprint, path))) :: l2)
    (hmis : ∀ k, derive_priv ctx self path = some k → k.to_keypair.x_only_public_key ≠ x)
    (hnodup : (inp.tap_key_origins.map Prod.fst).Nodup) :
    compute_matching_keys self ctx inp.tap_key_origins =
      compute_matching_keys self ctx (l1 ++ l2) ∧
    (∀ psbt' inp' tlh,
      sign_psbt_input_mut self ctx psbt idx hash_ty = some (psbt', Except.ok ()) →
      psbt'.inputs[idx]? = some inp' →
      btLookup (x, tlh) inp'.tap_script_sigs = btLookup (x, tlh) inp.tap_script_sigs) ∧
    (sign_psbt_input_mut self ctx psbt idx hash_ty).map Prod.snd =
      (sign_psbt_input_mut self ctx
        { psbt with inputs := psbt.inputs.set idx { inp with tap_key_origins := l1 ++ l2 } }
        idx hash_ty).map Prod.snd := by
  have hnone : matchKeySpec self ctx (x, (vl, (self.fingerprint, path))) = none := by
    cases hd : derive_priv ctx self path with
    | none =>
      unfold matchKeySpec
      rw [if_pos rfl, hd]
    | some k =>
      unfold matchKeySpec
      rw [if_pos rfl, hd]
      dsimp only
      rw [if_neg (hmis k hd)]
  have hdrop : compute_matching_keys self ctx inp.tap_key_origins =
      compute_matching_keys self ctx (l1 ++ l2) := by
    rw [horig]
    exact compute_matching_keys_drop self ctx l1 l2 _ hnone
  have hxnot : x ∉ (l1 ++ l2).map Prod.fst := by
    have h2 := hnodup
    rw [horig, List.map_append, List.map_cons] at h2
    have h3 := List.nodup_middle.mp h2
    rw [List.nodup_cons, ← List.map_append] at h3
    exact h3.1
  refine ⟨hdrop, fun psbt' inp' tlh h hi' => ?_, ?_⟩
  · rcases sign_psbt_input_mut_ok_decomp h with ⟨utxos, inp0, inp1, m, hc, hg, ht, hs, rfl⟩
    rw [Option.some.inj (hg.symm.trans hin)] at ht
    obtain ⟨hlt, -⟩ := List.getElem?_eq_some_iff.mp hg
    obtain rfl : ({ inp1 with tap_script_sigs := m } : Input) = inp' := by
      rw [show ({ psbt with
            inputs := psbt.inputs.set idx { inp1 with tap_script_sigs := m } } : Psbt).inputs =
          psbt.inputs.set idx { inp1 with tap_script_sigs := m } from rfl] at hi'
      rw [List.getElem?_set_self (by simpa using hlt)] at hi'
      exact Option.some.inj hi'
    have hpres := sign_taproot_top_key_preserves ht
    have hσ : compute_matching_keys self ctx inp1.tap_key_origins =
        compute_matching_keys self ctx (l1 ++ l2) := by
      rw [hpres.2.2.2.2]
      exact hdrop
    show btLookup (x, tlh) m = btLookup (x, tlh) inp.tap_script_sigs
    by_cases hd : DigestOk psbt.extract_tx utxos hash_ty
    · rw [signSigners_ok hd] at hs
      obtain rfl := Option.some.inj hs
      rw [hpres.2.1]
      refine btLookup_btApplyAll_of_not_mem _ ?_
      intro hmem
      rcases (mem_keys_signersInserts _ _ _ _ _).1 hmem with ⟨kp', vl', tlh', hmem', -, keq⟩
      have hx : kp'.x_only_public_key = x := (congrArg Prod.fst keq).symm
      rw [hσ] at hmem'
      have hpk := matched_pub_mem_keys hmem'
      rw [hx] at hpk
      exact hxnot hpk
    · rcases signSigners_not_ok hd hs with ⟨rfl, -⟩
      rw [hpres.2.1]
  · have hlt : idx < psbt.inputs.length := (List.getElem?_eq_some_iff.mp hin).1
    have hcc : collectUtxos ({ psbt with
        inputs := psbt.inputs.set idx { inp with tap_key_origins := l1 ++ l2 } } : Psbt).inputs =
        collectUtxos psbt.inputs :=
      collectUtxos_set_eq hin rfl
    cases hc : collectUtxos psbt.inputs with
    | error i =>
      rw [sign_psbt_input_mut_of_collect_err hc,
        sign_psbt_input_mut_of_collect_err (hcc.trans hc)]
      rfl
    | ok utxos =>
      have hgD : ({ psbt with
          inputs := psbt.inputs.set idx { inp with tap_key_origins := l1 ++ l2 } } : Psbt).inputs[idx]? =
          some ({ inp with tap_key_origins := l1 ++ l2 } : Input) := by
        show (psbt.inputs.set idx ({ inp with tap_key_origins := l1 ++ l2 } : Input))[idx]? = _
        rw [List.getElem?_set_self (by simpa using hlt)]
      rw [sign_psbt_input_mut_of_input hc hin,
        sign_psbt_input_mut_of_input (hcc.trans hc) hgD]
      dsimp only [Psbt.extract_tx]
      rw [sign_taproot_top_key_origins_congr self psbt.unsigned_tx utxos inp hash_ty (l1 ++ l2)]
      cases ht : sign_taproot_top_key self psbt.unsigned_tx utxos inp hash_ty with
      | none => rfl
      | some inp1 =>
        dsimp only [Option.map]
        rw [sign_all_tapleaf_branches_eq, sign_all_tapleaf_branches_eq]
        have hσ : compute_matching_keys self ctx inp1.tap_key_origins =
            compute_matching_keys self ctx (l1 ++ l2) := by
          rw [(sign_taproot_top_key_preserves ht).2.2.2.2]
          exact hdrop
        dsimp only
        rw [hσ]
        cases hsig : signSigners psbt.unsigned_tx utxos hash_ty
            (compute_matching_keys self ctx (l1 ++ l2)) inp1.tap_script_sigs with
        | none => rfl
        | some m => rfl

/-- C6 witness: a concrete fingerprint-matching entry recording `ext 42`
while the path re-derives a different key; the Key Matcher yields the same
signers as with the entry removed. -/
theorem origin_mismatch_ignored_witness :
    compute_matching_keys (XPriv.master 0) exCtx exInputMis.tap_key_origins =
      compute_matching_keys (XPriv.master 0) exCtx ([] ++ []) :=
  (origin_mismatch_ignored (XPriv.master 0) exCtx exPsbtMis 0 SchnorrSighashType.All
    exInputMis (XOnlyPublicKey.ext 42) [7] [1] [] [] (by decide) rfl
    (by
      intro k hk
      obtain rfl := Option.some.inj ((show derive_priv exCtx (XPriv.master 0) [1] =
        some (XPriv.child (XPriv.master 0) 1) from rfl).symm.trans hk)
      decide)
    (by decide)).1

theorem sign_psbt_input_mut_idem {self : XPriv} {ctx : CryptoCtx} {psbt psbt' : Psbt}
    {idx : Nat} {hash_ty : SchnorrSighashType}
    (h : sign_psbt_input_mut self ctx psbt idx hash_ty = some (psbt', Except.ok ())) :
    sign_psbt_input_mut self ctx psbt' idx hash_ty = some (psbt', Except.ok ()) := by
  rcases sign_psbt_input_mut_ok_decomp h with ⟨utxos, inp, inp1, m, hc, hg, ht, hs, rfl⟩
  dsimp only [Psbt.extract_tx] at ht hs
  obtain ⟨hlt, -⟩ := List.getElem?_eq_some_iff.mp hg
  have hpres := sign_taproot_top_key_preserves ht
  have hc' : collectUtxos ({ psbt with
      inputs := psbt.inputs.set idx ({ inp1 with tap_script_sigs := m } : Input) } : Psbt).inputs =
      Except.ok utxos := by
    show collectUtxos (psbt.inputs.set idx ({ inp1 with tap_script_sigs := m } : Input)) = _
    rw [collectUtxos_set_eq hg
      (show ({ inp1 with tap_script_sigs := m } : Input).witness_utxo = inp.witness_utxo from
        hpres.1), hc]
  have hg' : ({ psbt with
      inputs := psbt.inputs.set idx ({ inp1 with tap_script_sigs := m } : Input) } : Psbt).inputs[idx]? =
      some ({ inp1 with tap_script_sigs := m } : Input) := by
    show (psbt.inputs.set idx ({ inp1 with tap_script_sigs := m } : Input))[idx]? = _
    rw [List.getElem?_set_self (by simpa using hlt)]
  have ht2 : sign_taproot_top_key self psbt.unsigned_tx utxos
      ({ inp1 with tap_script_sigs := m } : Input) hash_ty =
      some ({ inp1 with tap_script_sigs := m } : Input) := by
    rw [sign_taproot_top_key_eq]
    rcases sign_taproot_top_key_some_cases ht with ⟨hk, he⟩ | ⟨hk, hd, he⟩
    · rw [if_neg (show ¬({ inp1 with tap_script_sigs := m } : Input).tap_internal_key =
        some (self.to_keypair.x_only_public_key) from fun hco =>
          hk (by rw [← hpres.2.2.1]; exact hco))]
    · rw [if_pos (show ({ inp1 with tap_script_sigs := m } : Input).tap_internal_key =
        some (self.to_keypair.x_only_public_key) from by
          show inp1.tap_internal_key = _
          rw [hpres.2.2.1]
          exact hk)]
      rw [get_sig_char, if_pos hd]
      dsimp only [Option.map]
      exact congrArg some (@input_update_key_sig_eta ({ inp1 with tap_script_sigs := m })
        (some (canonSig psbt.unsigned_tx utxos hash_ty
          (self.to_keypair.tap_tweak inp1.tap_merkle_root) none)) (by rw [he]))
  have hs2 : signSigners psbt.unsigned_tx utxos hash_ty
      (compute_matching_keys self ctx inp1.tap_key_origins) m = some m := by
    by_cases hd : DigestOk psbt.unsigned_tx utxos hash_ty
    · rw [signSigners_ok hd] at hs
      obtain rfl := Option.some.inj hs
      rw [signSigners_ok hd, btApplyAll_idem (canonFor psbt.unsigned_tx utxos hash_ty)
        (signersInserts_consistent _ _ _ _)]
    · rcases signSigners_not_ok hd hs with ⟨rfl, hall⟩
      exact hall _
  rw [sign_psbt_input_mut_of_input hc' hg']
  dsimp only [Psbt.extract_tx]
  rw [ht2]
  dsimp only
  rw [sign_all_tapleaf_branches_eq]
  dsimp only
  rw [hs2]
  dsimp only [Option.map]
  rw [List.set_set]

theorem countSigsFor_signed {self : XPriv} {ctx : CryptoCtx} {tx : Transaction}
    {utxos : List TxOut} {hash_ty : SchnorrSighashType}
    {origins : List (XOnlyPublicKey × (List TapLeafHash × KeySource))}
    {m0 m : TapSigMap} {kp : KeyPair} {vl : List TapLeafHash}
    (hs : signSigners tx utxos hash_ty (compute_matching_keys self ctx origins) m0 = some m)
    (hmem : (kp, vl) ∈ compute_matching_keys self ctx origins)
    (hnodupT : (origins.map Prod.fst).Nodup)
    (hnodupS : (m0.map Prod.fst).Nodup)
    (hcount0 : countSigsFor m0 kp.x_only_public_key = 0) :
    countSigsFor m kp.x_only_public_key = vl.dedup.length := by
  by_cases hd : DigestOk tx utxos hash_ty
  case neg =>
    have hvl := signSigners_not_ok_empty hd hs (kp, vl) hmem
    simp only at hvl
    subst hvl
    rcases signSigners_not_ok hd hs with ⟨rfl, -⟩
    simpa using hcount0
  case pos =>
    rw [signSigners_ok hd] at hs
    obtain rfl := Option.some.inj hs
    have hnox : ∀ p ∈ m0, ¬p.1.1 = kp.x_only_public_key := by
      intro p hp hpx
      have hnil : m0.filter (fun p => decide (p.1.1 = kp.x_only_public_key)) = [] :=
        List.length_eq_zero.mp hcount0
      have hmemf : p ∈ m0.filter (fun p => decide (p.1.1 = kp.x_only_public_key)) :=
        List.mem_filter.mpr ⟨hp, by simpa using hpx⟩
      rw [hnil] at hmemf
      cases hmemf
    have hLkeys : ∀ tlh : TapLeafHash,
        (kp.x_only_public_key, tlh) ∈ (signersInserts tx utxos hash_ty
          (compute_matching_keys self ctx origins)).map Prod.fst ↔ tlh ∈ vl := by
      intro tlh
      rw [mem_keys_signersInserts]
      constructor
      · rintro ⟨kp', vl', tlh', hmem', htlh', keq⟩
        have hk1 : kp.x_only_public_key = kp'.x_only_public_key := congrArg Prod.fst keq
        have hk2 : tlh = tlh' := congrArg Prod.snd keq
        have hkp : kp' = kp := (XOnlyPublicKey.ofKeyPair.inj hk1).symm
        subst hkp
        have hvl : vl' = vl := by
          rcases (compute_matching_keys_mem self ctx origins kp' vl).1 hmem with
            ⟨x1, ks1, ht1, -, -, -, -, hx1⟩
          rcases (compute_matching_keys_mem self ctx origins kp' vl').1 hmem' with
            ⟨x2, ks2, ht2, -, -, -, -, hx2⟩
          have hxx : x2 = x1 := by rw [← hx1, ← hx2]
          subst hxx
          exact congrArg Prod.fst (nodup_keys_unique hnodupT ht2 ht1)
        rw [hk2, ← hvl]
        exact htlh'
      · intro htlh
        exact ⟨kp, vl, tlh, hmem, htlh, rfl⟩
    have hconsist := signersInserts_consistent tx utxos hash_ty
      (compute_matching_keys self ctx origins)
    have hnodupm : ((btApplyAll (signersInserts tx utxos hash_ty
        (compute_matching_keys self ctx origins)) m0).map Prod.fst).Nodup :=
      nodup_keys_btApplyAll _ hnodupS
    have hperm : List.Perm
        ((btApplyAll (signersInserts tx utxos hash_ty
          (compute_matching_keys self ctx origins)) m0).filter
            (fun p => decide (p.1.1 = kp.x_only_public_key)))
        (vl.dedup.map (fun tlh => ((kp.x_only_public_key, tlh),
          canonFor tx utxos hash_ty (kp.x_only_public_key, tlh)))) := by
      have hFnodup : ((btApplyAll (signersInserts tx utxos hash_ty
          (compute_matching_keys self ctx origins)) m0).filter
            (fun p => decide (p.1.1 = kp.x_only_public_key))).Nodup :=
        (List.Nodup.of_map Prod.fst hnodupm).filter _
      have hGnodup : (vl.dedup.map (fun tlh => ((kp.x_only_public_key, tlh),
          canonFor tx utxos hash_ty (kp.x_only_public_key, tlh)))).Nodup := by
        refine (List.nodup_dedup vl).map ?_
        intro a b hab
        exact congrArg (fun q => q.1.2) hab
      rw [List.perm_ext_iff_of_nodup hFnodup hGnodup]
      intro p
      obtain ⟨⟨px, ptlh⟩, pv⟩ := p
      rw [List.mem_filter, List.mem_map]
      constructor
      · rintro ⟨hpm, hpx⟩
        have hpx' : px = kp.x_only_public_key := by simpa using hpx
        subst hpx'
        have hlk := (mem_iff_btLookup hnodupm ((kp.x_only_public_key, ptlh), pv)).1 hpm
        rw [btLookup_btApplyAll (canonFor tx utxos hash_ty) hconsist] at hlk
        split_ifs at hlk with hmemk
        · refine ⟨ptlh, ?_, ?_⟩
          · exact List.mem_dedup.mpr ((hLkeys ptlh).1 hmemk)
          · rw [Option.some.inj hlk]
        · exfalso
          have hkm : ((kp.x_only_public_key, ptlh) : SigKey) ∈ m0.map Prod.fst := by
            rw [← btLookup_isSome_iff]
            rw [hlk]
            rfl
          rcases List.mem_map.1 hkm with ⟨q, hq, hq2⟩
          exact hnox q hq
            (by rw [show q.1 = ((kp.x_only_public_key, ptlh) : SigKey) from hq2])
      · rintro ⟨tlh, htlh, heq⟩
        obtain ⟨h1, h2⟩ : ((kp.x_only_public_key, tlh) : SigKey) = (px, ptlh) ∧
            canonFor tx utxos hash_ty (kp.x_only_public_key, tlh) = pv := by
          constructor
          · exact congrArg Prod.fst heq
          · exact congrArg Prod.snd heq
        have hx : px = kp.x_only_public_key := (congrArg Prod.fst h1).symm
        have htl : ptlh = tlh := (congrArg Prod.snd h1).symm
        subst hx
        subst htl
        refine ⟨?_, by simp⟩
        rw [mem_iff_btLookup hnodupm]
        rw [btLookup_btApplyAll (canonFor tx utxos hash_ty) hconsist]
        rw [if_pos ((hLkeys ptlh).2 (List.mem_dedup.mp htlh))]
        rw [← h2]
    calc countSigsFor (btApplyAll (signersInserts tx utxos hash_ty
          (compute_matching_keys self ctx origins)) m0) kp.x_only_public_key
        = ((btApplyAll (signersInserts tx utxos hash_ty
            (compute_matching_keys self ctx origins)) m0).filter
              (fun p => decide (p.1.1 = kp.x_only_public_key))).length := rfl
      _ = (vl.dedup.map (fun tlh => ((kp.x_only_public_key, tlh),
            canonFor tx utxos hash_ty (kp.x_only_public_key, tlh)))).length :=
          hperm.length_eq
      _ = vl.dedup.length := List.length_map _ _

/-- C8 (amended): signing the same input twice is idempotent — the second run
returns the identical PSBT — and, **provided the target record initially
holds no tapleaf signature keyed by the matched key** (and the maps have the
unique keys every `BTreeMap` has), the number of `tap_script_sigs` entries
keyed by that key after signing equals the number of distinct tapleaf
identifiers associated with it in the expected-signer table. -/
theorem resign_overwrites (self : XPriv) (ctx : CryptoCtx) (psbt psbt' : Psbt) (idx : Nat)
    (hash_ty : SchnorrSighashType)
    (h : sign_psbt_input_mut self ctx psbt idx hash_ty = some (psbt', Except.ok ())) :
    sign_psbt_input_mut self ctx psbt' idx hash_ty = some (psbt', Except.ok ()) ∧
    (∀ inp inp' kp vl, psbt.inputs[idx]? = some inp → psbt'.inputs[idx]? = some inp' →
      (kp, vl) ∈ compute_matching_keys self ctx inp.tap_key_origins →
      (inp.tap_key_origins.map Prod.fst).Nodup →
      (inp.tap_script_sigs.map Prod.fst).Nodup →
      countSigsFor inp.tap_script_sigs kp.x_only_public_key = 0 →
      countSigsFor inp'.tap_script_sigs kp.x_only_public_key = vl.dedup.length) := by
  refine ⟨sign_psbt_input_mut_idem h, ?_⟩
  intro inp inp' kp vl hi hi' hmem hnodupT hnodupS hcount0
  rcases sign_psbt_input_mut_ok_decomp h with ⟨utxos, inp0, inp1, m, hc, hg, ht, hs, rfl⟩
  rw [Option.some.inj (hg.symm.trans hi)] at ht
  obtain ⟨hlt, -⟩ := List.getElem?_eq_some_iff.mp hg
  obtain rfl : ({ inp1 with tap_script_sigs := m } : Input) = inp' := by
    rw [show ({ psbt with
          inputs := psbt.inputs.set idx { inp1 with tap_script_sigs := m } } : Psbt).inputs =
        psbt.inputs.set idx { inp1 with tap_script_sigs := m } from rfl] at hi'
    rw [List.getElem?_set_self (by simpa using hlt)] at hi'
    exact Option.some.inj hi'
  have hpres := sign_taproot_top_key_preserves ht
  show countSigsFor m kp.x_only_public_key = vl.dedup.length
  rw [hpres.2.2.2.2, hpres.2.1] at hs
  exact countSigsFor_signed hs hmem hnodupT hnodupS hcount0

/-- C8 witness: the concrete run on a fresh record yields exactly one entry
keyed by the matched key — the number of distinct leaves in its table entry. -/
theorem resign_overwrites_witness :
    countSigsFor exInputBothSigned.tap_script_sigs exDerived.to_keypair.x_only_public_key =
      ([7] : List TapLeafHash).dedup.length :=
  (resign_overwrites (XPriv.master 0) exCtx exPsbtBoth exPsbtBothSigned 0
    SchnorrSighashType.All (by decide)).2 exInputBoth exInputBothSigned
    exDerived.to_keypair [7] (by decide) (by decide) (by decide) (by decide) (by decide)
    (by decide)

/-- C8 counterexample: starting from a record that already holds a signature
keyed by the matched public key under a leaf absent from the table, a
successful signing run leaves 2 entries keyed by that key although the table
associates only 1 distinct leaf with it — the claim's count assertion fails
as stated. -/
theorem resign_overwrites_counterexample :
    (sign_psbt_input_mut (XPriv.master 0) exCtx exPsbtJunk 0 SchnorrSighashType.All).map
        (fun r => (r.2, r.1.inputs.map fun i => countSigsFor i.tap_script_sigs exPubD)) =
      some (Except.ok (), [2]) ∧
    (exDerived.to_keypair, [7]) ∈
      compute_matching_keys (XPriv.master 0) exCtx exInputJunk.tap_key_origins ∧
    exDerived.to_keypair.x_only_public_key = exPubD ∧
    ([7] : List TapLeafHash).dedup.length = 1 := by decide

end SapioPsbt
